import Mathlib

set_option linter.all false

/-!
Shallow embedding of the buffer cache in `src/kernel/bio.c`.

The cache is a fixed array of `NBUF` buffer slots threaded on a circular
doubly linked recency list through a sentinel (`bcache.head`).  We embed the
state as a structure holding the capacity `n` (NBUF), the slot array as a
total function `bufs : Nat → Buf` (indices `0, …, n-1` are the real slots),
and the raw list links as two index maps `next prev : Nat → Nat`, where the
index `n` plays the role of the sentinel `&bcache.head`.

Machine details abstracted, as the spec directs for parts outside `bio.c`:
the block payload (`data[BSIZE]` from the missing `buf.h`) is a single `Nat`;
the reference count is an integer; a slot's sleeplock is modelled by the pid
of its holder (`none` = free), so `holdingsleep` is an equality test; the
spinlock `bcache.lock` (pure mutual exclusion, no observable sequential
effect) is not represented; `virtio_disk_rw` is an external collaborator,
modelled by a disk map `Nat → Nat → Nat` plus an explicit trace of disk
operations so that "performs no disk I/O" is an observable statement.
`acquiresleep` is modelled by its postcondition (the caller ends up holding
the lock); `panic` is modelled by a `fatal` result carrying the state at the
point of the panic.
-/

/-- One buffer slot (`struct buf`; the struct itself is declared in the
missing `buf.h`, its fields are taken from the spec's data model and from
their uses in `bio.c`).  `data` abstracts the block payload, `holder` is the
pid holding the slot's sleeplock (`none` = free). -/
structure Buf where
  dev : Nat
  blockno : Nat
  valid : Bool
  refcnt : Int
  data : Nat
  holder : Option Nat
deriving Repr, DecidableEq

/-- A zero-initialized slot: the global `bcache` lives in BSS, so before
`binit` every field of every slot is zero. -/
def Buf.zeroed : Buf :=
  { dev := 0, blockno := 0, valid := false, refcnt := 0, data := 0, holder := none }

/-- The cache (`bcache`): capacity `n` (= NBUF), the slot array, and the raw
recency-list links.  Index `n` is the sentinel `&bcache.head`; `next`/`prev`
at indices above `n` are junk, never followed. -/
structure BCache where
  n : Nat
  bufs : Nat → Buf
  next : Nat → Nat
  prev : Nat → Nat

/-- One iteration of the `binit` loop: insert slot `b` right after the
sentinel, mirroring the C statements in order:
`b->next = bcache.head.next; b->prev = &bcache.head;`
`initsleeplock(&b->lock, "buffer");`
`bcache.head.next->prev = b; bcache.head.next = b;` -/
def insertAtHead (c : BCache) (b : Nat) : BCache :=
  let s1 := { c with next := Function.update c.next b (c.next c.n) }
  let s2 := { s1 with prev := Function.update s1.prev b s1.n }
  let s3 := { s2 with bufs := Function.update s2.bufs b ({ s2.bufs b with holder := none }) }
  let s4 := { s3 with prev := Function.update s3.prev (s3.next s3.n) b }
  { s4 with next := Function.update s4.next s4.n b }

/-- The state at the top of `binit`'s loop: zeroed slots (the global
`bcache` lives in BSS) and `bcache.head.prev = bcache.head.next =
&bcache.head`.  (`initlock(&bcache.lock, "bcache")` has no sequential effect
and is not represented.) -/
def binitStart (n : Nat) : BCache :=
  { n := n, bufs := fun _ => Buf.zeroed,
    next := Function.update (fun _ => 0) n n,
    prev := Function.update (fun _ => 0) n n }

/-- `binit`: the loop `for(b = bcache.buf; b < bcache.buf+NBUF; b++)`
inserting every slot at the head. -/
def binit (n : Nat) : BCache :=
  (List.range n).foldl insertAtHead (binitStart n)

/-- The nodes visited following `next` links from `x`, stopping at the
sentinel; `fuel` bounds the walk (the C loop `for(b = ...; b != &bcache.head;
b = b->next)` terminates only because the list is well formed). -/
def chainNext (c : BCache) : Nat → Nat → List Nat
  | 0, _ => []
  | fuel + 1, x => if x = c.n then [] else x :: chainNext c fuel (c.next x)

/-- The slots in recency order, most recently used first: the first scan of
`bget` walks `bcache.head.next, …` via `next`. -/
def mruChain (c : BCache) : List Nat :=
  chainNext c (c.n + 1) (c.next c.n)

/-- The cache with the roles of `next` and `prev` exchanged; walking `next`
in `mirror c` is walking `prev` in `c`. -/
def mirror (c : BCache) : BCache :=
  { c with next := c.prev, prev := c.next }

/-- The slots in reverse recency order, least recently used first: the second
scan of `bget` walks `bcache.head.prev, …` via `prev`. -/
def lruChain (c : BCache) : List Nat :=
  mruChain (mirror c)

/-- The cached-block test of the first `bget` loop:
`b->dev == dev && b->blockno == blockno`. -/
def isHit (dev blockno : Nat) (b : Buf) : Bool :=
  b.dev == dev && b.blockno == blockno

/-- Result of `bget`/`bread`: the index of the returned (locked) slot, or a
kernel panic. -/
inductive GetRes where
  | ok (i : Nat)
  | fatal
deriving Repr, DecidableEq

/-- An invocation of the external disk-transfer collaborator
`virtio_disk_rw(b, write)`, recorded with the slot's identity. -/
inductive DiskOp where
  | rd (dev blockno : Nat)
  | wr (dev blockno : Nat)
deriving Repr, DecidableEq

/-- `bget(dev, blockno)`: scan the list from `head.next` for a cached slot;
if found, `b->refcnt++` and `acquiresleep(&b->lock)`.  Otherwise scan from
`head.prev` for a slot with `refcnt == 0`; rebind it (`b->dev = dev;
b->blockno = blockno; b->valid = 0; b->refcnt = 1`) and `acquiresleep`.
Otherwise `panic("bget: no buffers")`.  The caller is `pid`; the third
component is the trace of disk operations (none: `bget` does no I/O). -/
def bget (pid dev blockno : Nat) (c : BCache) : GetRes × BCache × List DiskOp :=
  match (mruChain c).find? (fun i => isHit dev blockno (c.bufs i)) with
  | some i =>
      let b := { c.bufs i with refcnt := (c.bufs i).refcnt + 1, holder := some pid }
      (GetRes.ok i, { c with bufs := Function.update c.bufs i b }, [])
  | none =>
      match (lruChain c).find? (fun i => (c.bufs i).refcnt == 0) with
      | some i =>
          let b := { c.bufs i with dev := dev, blockno := blockno, valid := false,
                                   refcnt := 1, holder := some pid }
          (GetRes.ok i, { c with bufs := Function.update c.bufs i b }, [])
      | none => (GetRes.fatal, c, [])

/-- `bread(dev, blockno)`: `b = bget(dev, blockno); if(!b->valid) {
virtio_disk_rw(b, 0); b->valid = 1; } return b;`.  The read transfer
populates the payload from the disk map at the slot's identity. -/
def bread (disk : Nat → Nat → Nat) (pid dev blockno : Nat) (c : BCache) :
    GetRes × BCache × List DiskOp :=
  match bget pid dev blockno c with
  | (GetRes.ok i, c1, tr) =>
      if (c1.bufs i).valid then (GetRes.ok i, c1, tr)
      else
        let b := { c1.bufs i with data := disk (c1.bufs i).dev (c1.bufs i).blockno,
                                  valid := true }
        (GetRes.ok i, { c1 with bufs := Function.update c1.bufs i b },
         tr ++ [DiskOp.rd (c1.bufs i).dev (c1.bufs i).blockno])
  | (GetRes.fatal, c1, tr) => (GetRes.fatal, c1, tr)

/-- Result of `bwrite`/`brelse`: normal return or a kernel panic. -/
inductive PRes where
  | ok
  | fatal
deriving Repr, DecidableEq

/-- `holdingsleep(&b->lock)` for caller `pid`: the lock is held and the
holder is the calling process. -/
def holdingsleep (c : BCache) (pid i : Nat) : Bool :=
  (c.bufs i).holder = some pid

/-- `bwrite(b)`: `if(!holdingsleep(&b->lock)) panic("bwrite");
virtio_disk_rw(b, 1);`.  No state change; one write transfer when the check
passes, none (and no state change) when it panics. -/
def bwrite (pid i : Nat) (c : BCache) : PRes × BCache × List DiskOp :=
  if holdingsleep c pid i then
    (PRes.ok, c, [DiskOp.wr ((c.bufs i).dev) ((c.bufs i).blockno)])
  else (PRes.fatal, c, [])

/-- The list surgery of `brelse` when the count reaches zero, mirroring the
C statements in order:
`b->next->prev = b->prev; b->prev->next = b->next;`
`b->next = bcache.head.next; b->prev = &bcache.head;`
`bcache.head.next->prev = b; bcache.head.next = b;` -/
def moveToHead (c : BCache) (i : Nat) : BCache :=
  let t1 := { c with prev := Function.update c.prev (c.next i) (c.prev i) }
  let t2 := { t1 with next := Function.update t1.next (t1.prev i) (t1.next i) }
  let t3 := { t2 with next := Function.update t2.next i (t2.next t2.n) }
  let t4 := { t3 with prev := Function.update t3.prev i t3.n }
  let t5 := { t4 with prev := Function.update t4.prev (t4.next t4.n) i }
  { t5 with next := Function.update t5.next t5.n i }

/-- `brelse(b)`: `if(!holdingsleep(&b->lock)) panic("brelse");
releasesleep(&b->lock); acquire(&bcache.lock); b->refcnt--;
if(b->refcnt == 0) { …move to head…; } release(&bcache.lock);`. -/
def brelse (pid i : Nat) (c : BCache) : PRes × BCache :=
  if holdingsleep c pid i then
    let s0 := { c with bufs := Function.update c.bufs i ({ c.bufs i with holder := none }) }
    let b1 := { s0.bufs i with refcnt := (s0.bufs i).refcnt - 1 }
    let s1 := { s0 with bufs := Function.update s0.bufs i b1 }
    if (s1.bufs i).refcnt == 0 then (PRes.ok, moveToHead s1 i)
    else (PRes.ok, s1)
  else (PRes.fatal, c)

/-- `bpin(b)`: `acquire(&bcache.lock); b->refcnt++; release(&bcache.lock);`. -/
def bpin (i : Nat) (c : BCache) : BCache :=
  { c with bufs := Function.update c.bufs i ({ c.bufs i with refcnt := (c.bufs i).refcnt + 1 }) }

/-- `bunpin(b)`: `acquire(&bcache.lock); b->refcnt--; release(&bcache.lock);`. -/
def bunpin (i : Nat) (c : BCache) : BCache :=
  { c with bufs := Function.update c.bufs i ({ c.bufs i with refcnt := (c.bufs i).refcnt - 1 }) }

/-- The caller-facing operations of the cache, for reachability statements.
Slot-handle arguments are slot indices. -/
inductive Op where
  | get (pid dev blockno : Nat)
  | read (pid dev blockno : Nat)
  | write (pid i : Nat)
  | relse (pid i : Nat)
  | pin (i : Nat)
  | unpin (i : Nat)

/-- The state transformer of one operation (the state component of the
operation's result; a panicking operation leaves the state at the point of
the panic). -/
def applyOp (disk : Nat → Nat → Nat) (c : BCache) : Op → BCache
  | Op.get pid dev blockno => (bget pid dev blockno c).2.1
  | Op.read pid dev blockno => (bread disk pid dev blockno c).2.1
  | Op.write pid i => (bwrite pid i c).2.1
  | Op.relse pid i => (brelse pid i c).2
  | Op.pin i => bpin i c
  | Op.unpin i => bunpin i c

/-- Run a sequence of operations. -/
def run (disk : Nat → Nat → Nat) (c : BCache) (ops : List Op) : BCache :=
  ops.foldl (applyOp disk) c

/-!
Abstraction of the circular doubly linked list: a cache `c` *represents* an
order list `l` (slot indices, most recently used first) when its `next` and
`prev` maps agree, on the sentinel and on every listed slot, with the
successor and predecessor maps of the cyclic sequence `sentinel :: l`.
-/

/-- The element following `x` in `l`, or `stop` if `x` is last in `l` (or
absent). -/
def succIn (stop : Nat) : List Nat → Nat → Nat
  | [], _ => stop
  | a :: rest, x => if x = a then rest.headD stop else succIn stop rest x

/-- Successor map of the cyclic sequence `n :: l` (`n` the sentinel). -/
def nextF (n : Nat) (l : List Nat) (x : Nat) : Nat :=
  if x = n then l.headD n else succIn n l x

/-- Predecessor map of the cyclic sequence `n :: l`: successor in the
reversed cycle. -/
def prevF (n : Nat) (l : List Nat) (x : Nat) : Nat :=
  nextF n l.reverse x

/-- The raw links of `c` represent the recency order `l` (most recently used
first). -/
def ptrRep (c : BCache) (l : List Nat) : Prop :=
  ∀ x ∈ c.n :: l, c.next x = nextF c.n l x ∧ c.prev x = prevF c.n l x

/-- Well-formedness with a named order: the recency list threads exactly the
`n` slots (in order `l`), and the links realize that cyclic order. -/
def wfList (c : BCache) (l : List Nat) : Prop :=
  l.Perm (List.range c.n) ∧ ptrRep c l

/-- Well-formedness of the cache: some recency order is represented. -/
def wf (c : BCache) : Prop :=
  ∃ l, wfList c l

/-- No two distinct slots are bound to the same (device, block number) pair. -/
def DistinctBindings (c : BCache) : Prop :=
  ∀ i < c.n, ∀ j < c.n, i ≠ j →
    ¬((c.bufs i).dev = (c.bufs j).dev ∧ (c.bufs i).blockno = (c.bufs j).blockno)

/-- Every reference count is nonnegative. -/
def NonnegRef (c : BCache) : Prop :=
  ∀ x, 0 ≤ (c.bufs x).refcnt

/-- Caller discipline assumed by the reference-count claim: `brelse` and
`bunpin` are invoked only on slots whose count is currently positive. -/
def OkOp (c : BCache) : Op → Prop
  | Op.relse _ i => 0 < (c.bufs i).refcnt
  | Op.unpin i => 0 < (c.bufs i).refcnt
  | _ => True

/-- A sequence of operations each of which respects `OkOp` in the state it
is applied to. -/
inductive GoodSeq (disk : Nat → Nat → Nat) : BCache → List Op → Prop
  | nil (c : BCache) : GoodSeq disk c []
  | cons {c : BCache} {op : Op} {ops : List Op} :
      OkOp c op → GoodSeq disk (applyOp disk c op) ops → GoodSeq disk c (op :: ops)

/-- Slot-handle arguments denote real slots of the fixed array (in C a
`struct buf *` handle is always one of the `NBUF` buffers; only `bget`
manufactures handles). -/
def LegalOp (n : Nat) : Op → Prop
  | Op.write _ i => i < n
  | Op.relse _ i => i < n
  | Op.pin i => i < n
  | Op.unpin i => i < n
  | _ => True

/-- The state of affairs between an `acquire` of (dev, blockno) and the
matching release: the cache is well formed, slot `i` is the slot the
cached-block scan of `bget(dev, blockno)` finds, its reference count is
positive, and no other slot bound to the same pair is lock-held.  (The last
conjunct matters because construction gives every slot the identity (0, 0),
so duplicate bindings exist; a lock-held duplicate could be released to
zero and jump ahead of `i` in the recency list.  `bget` hands a slot's lock
only to the first match of its scan, so the conjunct holds in every state
reachable from `binit`.) -/
def AcquireView (dev blockno i : Nat) (s : BCache) : Prop :=
  wf s ∧
  (mruChain s).find? (fun j => isHit dev blockno (s.bufs j)) = some i ∧
  0 < (s.bufs i).refcnt ∧
  (∀ j, j < s.n → j ≠ i → isHit dev blockno (s.bufs j) = true → (s.bufs j).holder = none)

/-- The claim's side condition on the operations between the two acquires:
after each of them, slot `i`'s reference count is still positive — no
intervening release (or unpin) drops it to zero. -/
inductive KeepsRef (disk : Nat → Nat → Nat) (i : Nat) : BCache → List Op → Prop
  | nil (c : BCache) : KeepsRef disk i c []
  | cons {c : BCache} {op : Op} {ops : List Op} :
      0 < ((applyOp disk c op).bufs i).refcnt →
      KeepsRef disk i (applyOp disk c op) ops →
      KeepsRef disk i c (op :: ops)

/-! Helper lemmas about `succIn`, the chains, and `ptrRep`. -/

theorem headD_append (l₁ l₂ : List Nat) (d : Nat) :
    (l₁ ++ l₂).headD d = l₁.headD (l₂.headD d) := by
  cases l₁ <;> simp

theorem succIn_not_mem {x : Nat} {l : List Nat} (h : x ∉ l) (stop : Nat) :
    succIn stop l x = stop := by
  induction l with
  | nil => rfl
  | cons a rest ih =>
      simp only [List.mem_cons, not_or] at h
      simp [succIn, h.1, ih h.2]

theorem succIn_append_of_mem {x : Nat} {l₁ : List Nat} (h : x ∈ l₁) (stop : Nat)
    (l₂ : List Nat) :
    succIn stop (l₁ ++ l₂) x = succIn (l₂.headD stop) l₁ x := by
  induction l₁ with
  | nil => cases h
  | cons a rest ih =>
      by_cases hx : x = a
      · subst hx
        simp only [List.cons_append, succIn, if_pos rfl]
        exact headD_append rest l₂ stop
      · rcases List.mem_cons.mp h with h1 | h2
        · exact absurd h1 hx
        · simp [succIn, hx, ih h2]

theorem succIn_append_of_not_mem {x : Nat} {l₁ : List Nat} (h : x ∉ l₁) (stop : Nat)
    (l₂ : List Nat) :
    succIn stop (l₁ ++ l₂) x = succIn stop l₂ x := by
  induction l₁ with
  | nil => rfl
  | cons a rest ih =>
      simp only [List.mem_cons, not_or] at h
      simp [succIn, h.1, ih h.2]

theorem succIn_first {x : Nat} {l₁ : List Nat} (h : x ∉ l₁) (stop : Nat) (l₂ : List Nat) :
    succIn stop (l₁ ++ x :: l₂) x = l₂.headD stop := by
  rw [succIn_append_of_not_mem h]
  simp [succIn]

theorem chainNext_congr {c c' : BCache} (hn : c'.n = c.n) (hnext : c'.next = c.next) :
    ∀ fuel x, chainNext c' fuel x = chainNext c fuel x := by
  intro fuel
  induction fuel with
  | zero => intro x; rfl
  | succ f ih => intro x; simp [chainNext, hn, hnext, ih]

theorem mruChain_bufs (c : BCache) (f : Nat → Buf) :
    mruChain { c with bufs := f } = mruChain c :=
  @chainNext_congr c ({ c with bufs := f }) rfl rfl _ _

theorem lruChain_bufs (c : BCache) (f : Nat → Buf) :
    lruChain { c with bufs := f } = lruChain c :=
  @chainNext_congr (mirror c) (mirror { c with bufs := f }) rfl rfl _ _

theorem ptrRep_congr {c c' : BCache} {l : List Nat} (hn : c'.n = c.n)
    (hnext : c'.next = c.next) (hprev : c'.prev = c.prev) (h : ptrRep c l) :
    ptrRep c' l := by
  intro x hx
  rw [hn] at hx
  rw [hn, hnext, hprev]
  exact h x hx

theorem chainNext_rep {c : BCache} {l : List Nat} (hrep : ptrRep c l)
    (hnd : l.Nodup) (hne : ∀ x ∈ l, x ≠ c.n) :
    ∀ l₂ l₁, l = l₁ ++ l₂ → ∀ fuel, l₂.length < fuel →
      chainNext c fuel (l₂.headD c.n) = l₂ := by
  intro l₂
  induction l₂ with
  | nil =>
      intro l₁ hl fuel hf
      cases fuel with
      | zero => omega
      | succ f => simp [chainNext]
  | cons a rest ih =>
      intro l₁ hl fuel hf
      have ha : a ∈ l := by rw [hl]; simp
      have han : a ≠ c.n := hne a ha
      have hal₁ : a ∉ l₁ := by
        intro hmem
        have hdisj : l₁.Disjoint (a :: rest) :=
          List.disjoint_of_nodup_append (hl ▸ hnd)
        exact hdisj hmem (List.mem_cons_self a rest)
      have hnexta : c.next a = rest.headD c.n := by
        rw [(hrep a (List.mem_cons_of_mem _ ha)).1]
        unfold nextF
        rw [if_neg han, hl]
        exact succIn_first hal₁ c.n rest
      cases fuel with
      | zero => omega
      | succ f =>
          simp only [List.headD_cons]
          rw [chainNext, if_neg han, hnexta]
          have hl' : l = (l₁ ++ [a]) ++ rest := by simp [hl]
          rw [ih (l₁ ++ [a]) hl' f (by simpa using Nat.lt_of_succ_lt_succ hf)]

theorem mruChain_rep {c : BCache} {l : List Nat} (hrep : ptrRep c l)
    (hnd : l.Nodup) (hne : ∀ x ∈ l, x ≠ c.n) (hlen : l.length ≤ c.n) :
    mruChain c = l := by
  have h0 : c.next c.n = l.headD c.n := by
    rw [(hrep c.n (List.mem_cons_self _ _)).1]
    simp [nextF]
  unfold mruChain
  rw [h0]
  exact chainNext_rep hrep hnd hne l [] rfl (c.n + 1) (by omega)

theorem ptrRep_mirror {c : BCache} {l : List Nat} (h : ptrRep c l) :
    ptrRep (mirror c) l.reverse := by
  intro x hx
  have hx' : x ∈ c.n :: l := by
    rcases List.mem_cons.mp hx with h1 | h2
    · exact h1 ▸ List.mem_cons_self _ _
    · exact List.mem_cons_of_mem _ (List.mem_reverse.mp h2)
  obtain ⟨h1, h2⟩ := h x hx'
  constructor
  · simpa [mirror, prevF] using h2
  · show c.next x = prevF c.n l.reverse x
    rw [prevF, List.reverse_reverse]
    exact h1

theorem lruChain_rep {c : BCache} {l : List Nat} (hrep : ptrRep c l)
    (hnd : l.Nodup) (hne : ∀ x ∈ l, x ≠ c.n) (hlen : l.length ≤ c.n) :
    lruChain c = l.reverse := by
  unfold lruChain
  exact mruChain_rep (ptrRep_mirror hrep) (List.nodup_reverse.mpr hnd)
    (fun x hx => hne x (List.mem_reverse.mp hx)) (by simpa using hlen)

theorem find?_congr {p q : Nat → Bool} {l : List Nat} (h : ∀ x ∈ l, p x = q x) :
    l.find? p = l.find? q := by
  induction l with
  | nil => rfl
  | cons a rest ih =>
      have ha := h a (List.mem_cons_self _ _)
      by_cases hp : p a = true
      · rw [List.find?_cons_of_pos _ hp, List.find?_cons_of_pos _ (ha ▸ hp)]
      · have hp' : ¬q a = true := fun hq => hp (ha ▸ hq)
        rw [List.find?_cons_of_neg _ (by simpa using hp),
            List.find?_cons_of_neg _ (by simpa using hp')]
        exact ih fun x hx => h x (List.mem_cons_of_mem _ hx)

theorem find?_eq_some_unique {p : Nat → Bool} {l : List Nat} {i : Nat}
    (hmem : i ∈ l) (hp : p i = true) (huniq : ∀ j ∈ l, j ≠ i → p j = false) :
    l.find? p = some i := by
  induction l with
  | nil => cases hmem
  | cons a rest ih =>
      by_cases hai : a = i
      · subst hai
        exact List.find?_cons_of_pos _ hp
      · have hpa : p a = false := huniq a (List.mem_cons_self _ _) hai
        rw [List.find?_cons_of_neg _ (by simp [hpa])]
        have hmem' : i ∈ rest := by
          rcases List.mem_cons.mp hmem with h1 | h2
          · exact absurd h1.symm hai
          · exact h2
        exact ih hmem' fun j hj hji => huniq j (List.mem_cons_of_mem _ hj) hji

/-! Pointwise normal forms of the two link-manipulating operations. -/

theorem insertAtHead_next_apply (c : BCache) (b x : Nat) :
    (insertAtHead c b).next x =
      if x = c.n then b else if x = b then c.next c.n else c.next x := by
  simp only [insertAtHead, Function.update_apply, ite_self]

theorem insertAtHead_prev_apply (c : BCache) (b x : Nat) :
    (insertAtHead c b).prev x =
      if x = c.next c.n then b else if x = b then c.n else c.prev x := by
  simp only [insertAtHead, Function.update_apply, ite_self]

theorem insertAtHead_n (c : BCache) (b : Nat) : (insertAtHead c b).n = c.n := rfl

theorem insertAtHead_bufs (c : BCache) (b : Nat) :
    (insertAtHead c b).bufs = Function.update c.bufs b ({ c.bufs b with holder := none }) := rfl

theorem moveToHead_next_apply (c : BCache) (i x : Nat) :
    (moveToHead c i).next x =
      if x = c.n then i
      else if x = i then (if c.n = c.prev i then c.next i else c.next c.n)
      else if x = c.prev i then c.next i
      else c.next x := by
  simp only [moveToHead, Function.update_apply, ite_self]

theorem moveToHead_prev_apply (c : BCache) (i x : Nat) :
    (moveToHead c i).prev x =
      if x = (if c.n = c.prev i then c.next i else c.next c.n) then i
      else if x = i then c.n
      else if x = c.next i then c.prev i
      else c.prev x := by
  simp only [moveToHead, Function.update_apply, ite_self]

theorem moveToHead_n (c : BCache) (i : Nat) : (moveToHead c i).n = c.n := rfl

theorem moveToHead_bufs (c : BCache) (i : Nat) : (moveToHead c i).bufs = c.bufs := rfl

theorem headD_mem_or (l : List Nat) (d : Nat) : l.headD d ∈ l ∨ l.headD d = d := by
  cases l <;> simp

theorem insertAtHead_rep {c : BCache} {l : List Nat} {b : Nat}
    (hrep : ptrRep c l) (hnd : l.Nodup) (hb : b ∉ l) (hbn : b ≠ c.n)
    (hne : ∀ x ∈ l, x ≠ c.n) :
    ptrRep (insertAtHead c b) (b :: l) := by
  have hhead : c.next c.n = l.headD c.n := by
    rw [(hrep c.n (List.mem_cons_self _ _)).1]
    simp [nextF]
  intro x hx
  rw [show (insertAtHead c b).n = c.n from rfl] at hx ⊢
  rw [insertAtHead_next_apply, insertAtHead_prev_apply]
  cases l with
  | nil =>
      have hh : c.next c.n = c.n := by simpa using hhead
      simp only [List.mem_cons, List.not_mem_nil, or_false] at hx
      rcases hx with h | h
      · subst h
        constructor
        · simp [nextF]
        · rw [hh]; simp [prevF, nextF]
      · subst h
        constructor
        · simp [nextF, hbn, succIn, hh]
        · rw [hh]; simp [prevF, nextF, hbn, succIn]
  | cons a l' =>
      have hh : c.next c.n = a := by simpa using hhead
      have han : a ≠ c.n := hne a (List.mem_cons_self _ _)
      have hba : b ≠ a := fun h => hb (h ▸ List.mem_cons_self _ _)
      have hal' : a ∉ l' := (List.nodup_cons.mp hnd).1
      have hnd' : l'.Nodup := (List.nodup_cons.mp hnd).2
      have hbl' : b ∉ l' := fun h => hb (List.mem_cons_of_mem _ h)
      simp only [List.mem_cons] at hx
      rcases hx with h | h | h | hx
      · -- x is the sentinel
        subst h
        refine ⟨by simp [nextF], ?_⟩
        rw [hh, if_neg (Ne.symm han), if_neg (Ne.symm hbn)]
        rw [(hrep c.n (List.mem_cons_self _ _)).2]
        simp only [prevF, nextF, if_pos rfl]
        simp only [List.reverse_cons, List.append_assoc]
        rw [headD_append, headD_append, headD_append]
        simp
      · -- x = b, the new head
        subst h
        refine ⟨?_, ?_⟩
        · rw [if_neg hbn, if_pos rfl, hh]
          simp [nextF, hbn, succIn]
        · rw [hh, if_neg hba, if_pos rfl]
          simp only [prevF, nextF, if_neg hbn]
          simp only [List.reverse_cons, List.append_assoc]
          rw [show [a] ++ [x] = a :: x :: ([] : List Nat) by simp]
          rw [show l'.reverse ++ a :: x :: ([] : List Nat)
                = (l'.reverse ++ [a]) ++ x :: ([] : List Nat) by simp]
          rw [succIn_first (by simp [hbl', hba]) c.n []]
          simp
      · -- x = a, the old head
        subst h
        refine ⟨?_, ?_⟩
        · rw [if_neg han, if_neg (Ne.symm hba)]
          rw [(hrep x (List.mem_cons_of_mem _ (List.mem_cons_self x l'))).1]
          simp only [nextF, if_neg han]
          show succIn c.n (x :: l') x = succIn c.n (b :: x :: l') x
          simp only [succIn, if_pos rfl, if_neg (Ne.symm hba)]
        · rw [hh, if_pos rfl]
          simp only [prevF, nextF, if_neg han]
          simp only [List.reverse_cons, List.append_assoc]
          rw [show [x] ++ [b] = x :: [b] by simp]
          rw [succIn_first (by simpa using hal') c.n [b]]
          simp
      · -- x in the tail
        have hxn : x ≠ c.n := hne x (List.mem_cons_of_mem _ hx)
        have hxa : x ≠ a := fun h => hal' (h ▸ hx)
        have hxb : x ≠ b := fun h => hbl' (h ▸ hx)
        refine ⟨?_, ?_⟩
        · rw [if_neg hxn, if_neg hxb]
          rw [(hrep x (List.mem_cons_of_mem _ (List.mem_cons_of_mem _ hx))).1]
          simp only [nextF, if_neg hxn]
          show succIn c.n (a :: l') x = succIn c.n (b :: a :: l') x
          simp only [succIn, if_neg hxa, if_neg hxb]
        · rw [hh, if_neg hxa, if_neg hxb]
          rw [(hrep x (List.mem_cons_of_mem _ (List.mem_cons_of_mem _ hx))).2]
          simp only [prevF, nextF, if_neg hxn]
          simp only [List.reverse_cons, List.append_assoc]
          rw [show [a] ++ [b] = ([a] ++ [b] : List Nat) by rfl]
          rw [succIn_append_of_mem (List.mem_reverse.mpr hx),
              succIn_append_of_mem (List.mem_reverse.mpr hx)]
          simp

theorem binit_aux (n : Nat) : ∀ k, k ≤ n →
    ((List.range k).foldl insertAtHead (binitStart n)).n = n ∧
    ptrRep ((List.range k).foldl insertAtHead (binitStart n)) ((List.range k).reverse) := by
  intro k
  induction k with
  | zero =>
      intro _
      refine ⟨rfl, ?_⟩
      intro x hx
      simp only [List.range_zero, List.reverse_nil, List.foldl_nil, List.mem_cons,
        List.not_mem_nil, or_false] at hx
      subst hx
      constructor <;> simp [binitStart, nextF, prevF]
  | succ k ih =>
      intro hk
      obtain ⟨hn, hrep⟩ := ih (Nat.le_of_succ_le hk)
      have hnd : ((List.range k).reverse).Nodup := List.nodup_reverse.mpr (List.nodup_range k)
      have hbk : k ∉ (List.range k).reverse := by simp
      have hkn : k ≠ ((List.range k).foldl insertAtHead (binitStart n)).n := by
        rw [hn]; omega
      have hne : ∀ x ∈ (List.range k).reverse,
          x ≠ ((List.range k).foldl insertAtHead (binitStart n)).n := by
        intro x hx
        rw [hn]
        simp only [List.mem_reverse, List.mem_range] at hx
        omega
      constructor
      · rw [List.range_succ, List.foldl_append, List.foldl_cons, List.foldl_nil,
          insertAtHead_n]
        exact hn
      · rw [List.range_succ, List.foldl_append, List.foldl_cons, List.foldl_nil]
        have hrev : (List.range k ++ [k]).reverse = k :: (List.range k).reverse := by
          simp
        rw [hrev]
        exact insertAtHead_rep hrep hnd hbk hkn hne

theorem binit_wfList (n : Nat) : wfList (binit n) ((List.range n).reverse) := by
  have h := binit_aux n n le_rfl
  constructor
  · rw [show (binit n).n = n from h.1]
    exact List.reverse_perm _
  · exact h.2

theorem binit_wf (n : Nat) : wf (binit n) :=
  ⟨(List.range n).reverse, binit_wfList n⟩

theorem headD_eq_of_ne_nil {l : List Nat} (h : l ≠ []) (d₁ d₂ : Nat) :
    l.headD d₁ = l.headD d₂ := by
  cases l with
  | nil => exact absurd rfl h
  | cons a t => rfl

theorem headD_mem_of_ne_nil {l : List Nat} (h : l ≠ []) (d : Nat) : l.headD d ∈ l := by
  cases l with
  | nil => exact absurd rfl h
  | cons a t => simp

theorem nextF_sentinel (n : Nat) (m : List Nat) : nextF n m n = m.headD n := by
  simp [nextF]

theorem prevF_sentinel (n : Nat) (m : List Nat) : prevF n m n = m.reverse.headD n := by
  simp [prevF, nextF]

theorem nextF_mem_split {x n : Nat} {u : List Nat} (hxu : x ∉ u) (hxn : x ≠ n)
    (v : List Nat) :
    nextF n (u ++ x :: v) x = v.headD n := by
  simp only [nextF, if_neg hxn]
  exact succIn_first hxu n v

theorem prevF_mem_split {x n : Nat} {v : List Nat} (hxv : x ∉ v) (hxn : x ≠ n)
    (u : List Nat) :
    prevF n (u ++ x :: v) x = u.reverse.headD n := by
  simp only [prevF, nextF, if_neg hxn]
  rw [List.reverse_append, List.reverse_cons, List.append_assoc]
  rw [show [x] ++ u.reverse = x :: u.reverse from rfl]
  exact succIn_first (by simpa using hxv) n u.reverse

theorem nextF_cons_self {i n : Nat} (hin : i ≠ n) (m : List Nat) :
    nextF n (i :: m) i = m.headD n :=
  nextF_mem_split (List.not_mem_nil i) hin m

theorem prevF_cons_self {i n : Nat} (hin : i ≠ n) {m : List Nat} (him : i ∉ m) :
    prevF n (i :: m) i = n := by
  have h := prevF_mem_split him hin ([] : List Nat)
  simpa using h

theorem moveToHead_rep {c : BCache} {l₁ l₂ : List Nat} {i : Nat}
    (hrep : ptrRep c (l₁ ++ i :: l₂)) (hnd : (l₁ ++ i :: l₂).Nodup)
    (hne : ∀ x ∈ l₁ ++ i :: l₂, x ≠ c.n) :
    ptrRep (moveToHead c i) (i :: (l₁ ++ l₂)) := by
  have hi : i ∈ l₁ ++ i :: l₂ := by simp
  have hin : i ≠ c.n := hne i hi
  obtain ⟨hnd₁, hndc, hdisj⟩ := List.nodup_append.mp hnd
  obtain ⟨hil₂, hnd₂⟩ := List.nodup_cons.mp hndc
  have hil₁ : i ∉ l₁ := fun h => hdisj h (List.mem_cons_self _ _)
  have hd12 : ∀ y ∈ l₁, y ∉ l₂ := fun y hy h2 => hdisj hy (List.mem_cons_of_mem _ h2)
  have hne₁ : ∀ y ∈ l₁, y ≠ c.n := fun y hy => hne y (List.mem_append_left _ hy)
  have hne₂ : ∀ y ∈ l₂, y ≠ c.n := fun y hy =>
    hne y (List.mem_append_right _ (List.mem_cons_of_mem _ hy))
  have hbn : c.next i = l₂.headD c.n := by
    rw [(hrep i (List.mem_cons_of_mem _ hi)).1]
    exact nextF_mem_split hil₁ hin l₂
  have hbp : c.prev i = l₁.reverse.headD c.n := by
    rw [(hrep i (List.mem_cons_of_mem _ hi)).2]
    exact prevF_mem_split hil₂ hin l₁
  have hH : (if c.n = c.prev i then c.next i else c.next c.n) = (l₁ ++ l₂).headD c.n := by
    cases l₁ with
    | nil =>
        rw [hbp]
        simp [hbn]
    | cons a l₁' =>
        have hpa : c.prev i ≠ c.n := by
          rw [hbp]
          have hm := headD_mem_of_ne_nil (by simp : (a :: l₁').reverse ≠ []) c.n
          exact hne₁ _ (List.mem_reverse.mp hm)
        rw [if_neg (fun h => hpa h.symm)]
        rw [(hrep c.n (List.mem_cons_self _ _)).1, nextF_sentinel]
        simp
  intro x hx
  rw [show (moveToHead c i).n = c.n from rfl] at hx ⊢
  rw [moveToHead_next_apply, moveToHead_prev_apply]
  simp only [hH]
  simp only [List.mem_cons, List.mem_append] at hx
  rcases hx with h | h | h | h
  · -- x is the sentinel
    rw [h]
    refine ⟨?_, ?_⟩
    · rw [if_pos rfl]
      simp [nextF]
    · by_cases hm : l₁ ++ l₂ = []
      · obtain ⟨h1, h2⟩ := List.append_eq_nil.mp hm
        subst h1; subst h2
        rw [if_pos (by simp)]
        rw [prevF_sentinel]
        simp
      · have hmem := headD_mem_of_ne_nil hm c.n
        have hcond : c.n ≠ (l₁ ++ l₂).headD c.n := by
          rcases List.mem_append.mp hmem with hm1 | hm2
          · exact fun hh => hne₁ _ hm1 hh.symm
          · exact fun hh => hne₂ _ hm2 hh.symm
        rw [if_neg hcond, if_neg (Ne.symm hin)]
        cases l₂ with
        | nil =>
            have hl₁ : l₁ ≠ [] := by simpa using hm
            rw [if_pos (by rw [hbn]; simp)]
            rw [hbp, prevF_sentinel]
            simp only [List.append_nil, List.reverse_cons]
            rw [headD_append]
            exact headD_eq_of_ne_nil (by simpa using hl₁) _ _
        | cons w l₂' =>
            have hw : c.n ≠ c.next i := by
              rw [hbn]
              exact fun hh => hne₂ w (List.mem_cons_self _ _) (by simpa using hh.symm)
            rw [if_neg hw]
            rw [(hrep c.n (List.mem_cons_self _ _)).2]
            rw [prevF_sentinel, prevF_sentinel]
            simp only [List.reverse_append, List.reverse_cons, List.append_assoc,
              headD_append, List.headD_cons]
  · -- x = i, the released slot
    rw [h]
    refine ⟨?_, ?_⟩
    · rw [if_neg hin, if_pos rfl]
      rw [nextF_cons_self hin]
    · have him : i ∉ l₁ ++ l₂ := by simp [hil₁, hil₂]
      have hcond : i ≠ (l₁ ++ l₂).headD c.n := by
        rcases headD_mem_or (l₁ ++ l₂) c.n with hm | hm
        · exact fun hh => him (hh ▸ hm)
        · rw [hm]; exact hin
      rw [if_neg hcond, if_pos rfl]
      rw [prevF_cons_self hin him]
  · -- x in l₁
    obtain ⟨u, v, rfl⟩ := List.append_of_mem h
    obtain ⟨hndu, hndxv, hdisju⟩ := List.nodup_append.mp hnd₁
    have hxu : x ∉ u := fun hh => hdisju hh (List.mem_cons_self _ _)
    obtain ⟨hxv, hndv⟩ := List.nodup_cons.mp hndxv
    have hxn : x ≠ c.n := hne₁ x h
    have hxi : x ≠ i := fun hh => hil₁ (hh ▸ h)
    have hxl₂ : x ∉ l₂ := hd12 x h
    refine ⟨?_, ?_⟩
    · -- next side
      rw [if_neg hxn, if_neg hxi]
      cases v with
      | nil =>
          have hcp : x = c.prev i := by
            rw [hbp]
            simp [headD_append]
          rw [if_pos hcp, hbn]
          have hsh : i :: ((u ++ [x]) ++ l₂) = (i :: u) ++ x :: l₂ := by simp
          rw [hsh, nextF_mem_split (by simp [hxu, hxi]) hxn l₂]
      | cons w v' =>
          have hval : ((u ++ x :: w :: v')).reverse.headD c.n ∈ w :: v' := by
            simp only [List.reverse_append, List.reverse_cons, List.append_assoc,
              headD_append, List.headD_cons]
            rcases headD_mem_or v'.reverse w with hm | hm
            · exact List.mem_cons_of_mem _ (List.mem_reverse.mp hm)
            · rw [hm]; exact List.mem_cons_self _ _
          have hcp : x ≠ c.prev i := by
            rw [hbp]
            exact fun hh => hxv (by rw [hh]; exact hval)
          rw [if_neg hcp]
          rw [(hrep x (by simp)).1]
          have hsh1 : (u ++ x :: w :: v') ++ i :: l₂ = u ++ x :: (w :: v' ++ i :: l₂) := by
            simp
          rw [hsh1, nextF_mem_split hxu hxn _]
          have hsh2 : i :: ((u ++ x :: w :: v') ++ l₂) = (i :: u) ++ x :: (w :: v' ++ l₂) := by
            simp
          rw [hsh2, nextF_mem_split (by simp [hxu, hxi]) hxn _]
          simp
    · -- prev side
      cases u with
      | nil =>
          rw [if_pos (by simp)]
          have hsh : i :: (([] ++ x :: v) ++ l₂) = [i] ++ x :: (v ++ l₂) := by simp
          rw [hsh, prevF_mem_split (by simp [hxv, hxl₂]) hxn [i]]
          simp
      | cons q u' =>
          have hq : x ≠ q := fun hh => hxu (by rw [hh]; exact List.mem_cons_self _ _)
          rw [if_neg (by simpa using hq), if_neg hxi]
          have hcn : x ≠ c.next i := by
            rw [hbn]
            rcases headD_mem_or l₂ c.n with hm | hm
            · exact fun hh => hxl₂ (hh ▸ hm)
            · rw [hm]; exact hxn
          rw [if_neg hcn]
          rw [(hrep x (by simp)).2]
          have hsh1 : ((q :: u') ++ x :: v) ++ i :: l₂ = (q :: u') ++ x :: (v ++ i :: l₂) := by
            simp
          rw [hsh1, prevF_mem_split (by simp [hxv, hxi, hxl₂]) hxn _]
          have hsh2 : i :: (((q :: u') ++ x :: v) ++ l₂) =
              (i :: q :: u') ++ x :: (v ++ l₂) := by simp
          rw [hsh2, prevF_mem_split (by simp [hxv, hxl₂]) hxn _]
          simp only [List.reverse_cons, List.append_assoc, headD_append, List.headD_cons]
  · -- x in l₂
    obtain ⟨u, v, rfl⟩ := List.append_of_mem h
    obtain ⟨hndu, hndxv, hdisju⟩ := List.nodup_append.mp hnd₂
    have hxu : x ∉ u := fun hh => hdisju hh (List.mem_cons_self _ _)
    obtain ⟨hxv, hndv⟩ := List.nodup_cons.mp hndxv
    have hxn : x ≠ c.n := hne₂ x h
    have hxi : x ≠ i := fun hh => hil₂ (hh ▸ h)
    have hxl₁ : x ∉ l₁ := fun hh => hd12 x hh h
    refine ⟨?_, ?_⟩
    · -- next side
      rw [if_neg hxn, if_neg hxi]
      have hcp : x ≠ c.prev i := by
        rw [hbp]
        rcases headD_mem_or l₁.reverse c.n with hm | hm
        · exact fun hh => hxl₁ (hh ▸ List.mem_reverse.mp hm)
        · rw [hm]; exact hxn
      rw [if_neg hcp]
      rw [(hrep x (by simp)).1]
      have hsh1 : l₁ ++ i :: (u ++ x :: v) = (l₁ ++ i :: u) ++ x :: v := by simp
      rw [hsh1, nextF_mem_split (by simp [hxl₁, hxi, hxu]) hxn v]
      have hsh2 : i :: (l₁ ++ (u ++ x :: v)) = (i :: (l₁ ++ u)) ++ x :: v := by simp
      rw [hsh2, nextF_mem_split (by simp [hxl₁, hxi, hxu]) hxn v]
    · -- prev side
      have hshm : l₁ ++ (u ++ x :: v) = (l₁ ++ u) ++ x :: v := by simp
      rw [hshm]
      cases hlu : l₁ ++ u with
      | nil =>
          rw [if_pos (by simp)]
          have hsh : i :: (([] : List Nat) ++ x :: v) = [i] ++ x :: v := by simp
          rw [hsh, prevF_mem_split hxv hxn [i]]
          simp
      | cons q r =>
          have hq : x ≠ q := by
            have hqm : q ∈ l₁ ++ u := by rw [hlu]; exact List.mem_cons_self _ _
            rcases List.mem_append.mp hqm with hm | hm
            · exact fun hh => hxl₁ (hh ▸ hm)
            · exact fun hh => hxu (hh ▸ hm)
          rw [if_neg (by simpa using hq), if_neg hxi]
          cases u with
          | nil =>
              have hcn : x = c.next i := by rw [hbn]; simp
              rw [if_pos hcn, hbp]
              have hl₁ : l₁ = q :: r := by simpa using hlu
              have hsh : i :: ((q :: r) ++ x :: v) = (i :: q :: r) ++ x :: v := by simp
              rw [hsh, prevF_mem_split hxv hxn _]
              rw [hl₁]
              simp only [List.reverse_cons, List.append_assoc, headD_append, List.headD_cons]
          | cons w u' =>
              have hcn : x ≠ c.next i := by
                rw [hbn]
                simp only [List.cons_append, List.headD_cons]
                exact fun hh => hxu (by rw [hh]; exact List.mem_cons_self _ _)
              rw [if_neg hcn]
              rw [(hrep x (by simp)).2]
              have hsh1 : l₁ ++ i :: ((w :: u') ++ x :: v) = (l₁ ++ i :: w :: u') ++ x :: v := by
                simp
              rw [hsh1, prevF_mem_split hxv hxn _]
              rw [← hlu]
              have hsh2 : i :: ((l₁ ++ (w :: u')) ++ x :: v) =
                  (i :: (l₁ ++ w :: u')) ++ x :: v := by simp
              rw [hsh2, prevF_mem_split hxv hxn _]
              simp only [List.reverse_cons, List.reverse_append, List.append_assoc,
                headD_append, List.headD_cons]

/-! Frame lemmas: which state components each operation can touch. -/

theorem bget_frame (pid dev blockno : Nat) (c : BCache) :
    (bget pid dev blockno c).2.1.n = c.n ∧
    (bget pid dev blockno c).2.1.next = c.next ∧
    (bget pid dev blockno c).2.1.prev = c.prev := by
  unfold bget
  split
  · exact ⟨rfl, rfl, rfl⟩
  · split
    · exact ⟨rfl, rfl, rfl⟩
    · exact ⟨rfl, rfl, rfl⟩

theorem bread_frame (disk : Nat → Nat → Nat) (pid dev blockno : Nat) (c : BCache) :
    (bread disk pid dev blockno c).2.1.n = c.n ∧
    (bread disk pid dev blockno c).2.1.next = c.next ∧
    (bread disk pid dev blockno c).2.1.prev = c.prev := by
  obtain ⟨h1, h2, h3⟩ := bget_frame pid dev blockno c
  unfold bread
  split
  all_goals rename_i heq
  · rename_i i c1 tr
    rw [heq] at h1 h2 h3
    split
    · exact ⟨h1, h2, h3⟩
    · exact ⟨h1, h2, h3⟩
  · rename_i c1 tr
    rw [heq] at h1 h2 h3
    exact ⟨h1, h2, h3⟩

theorem bwrite_state (pid i : Nat) (c : BCache) : (bwrite pid i c).2.1 = c := by
  unfold bwrite
  split <;> rfl

theorem bpin_frame (i : Nat) (c : BCache) :
    (bpin i c).n = c.n ∧ (bpin i c).next = c.next ∧ (bpin i c).prev = c.prev :=
  ⟨rfl, rfl, rfl⟩

theorem bunpin_frame (i : Nat) (c : BCache) :
    (bunpin i c).n = c.n ∧ (bunpin i c).next = c.next ∧ (bunpin i c).prev = c.prev :=
  ⟨rfl, rfl, rfl⟩

theorem brelse_not_holding {pid i : Nat} {c : BCache} (h : ¬ holdingsleep c pid i = true) :
    brelse pid i c = (PRes.fatal, c) := by
  unfold brelse
  rw [if_neg h]

theorem brelse_spec (pid i : Nat) (c : BCache) (h : holdingsleep c pid i = true) :
    brelse pid i c =
      (PRes.ok,
       if (c.bufs i).refcnt - 1 = 0
       then moveToHead ({ c with bufs := Function.update c.bufs i ({ c.bufs i with refcnt := (c.bufs i).refcnt - 1, holder := none }) }) i
       else { c with bufs := Function.update c.bufs i ({ c.bufs i with refcnt := (c.bufs i).refcnt - 1, holder := none }) }) := by
  unfold brelse
  rw [if_pos h]
  simp only [Function.update_same, Function.update_idem, beq_iff_eq]
  split <;> rfl

theorem brelse_n (pid i : Nat) (c : BCache) : (brelse pid i c).2.n = c.n := by
  by_cases h : holdingsleep c pid i = true
  · rw [brelse_spec pid i c h]
    split <;> rfl
  · rw [brelse_not_holding h]

/-! Preservation of well-formedness by every operation. -/

theorem wfList_congr {c c' : BCache} {l : List Nat} (hn : c'.n = c.n)
    (hx : c'.next = c.next) (hp : c'.prev = c.prev) (h : wfList c l) : wfList c' l :=
  ⟨by rw [hn]; exact h.1, ptrRep_congr hn hx hp h.2⟩

theorem wf_congr {c c' : BCache} (hn : c'.n = c.n) (hx : c'.next = c.next)
    (hp : c'.prev = c.prev) : wf c → wf c' :=
  fun hwf => hwf.elim fun l hl => ⟨l, wfList_congr hn hx hp hl⟩

theorem wf_brelse (pid i : Nat) (c : BCache) (hwf : wf c) (hi : i < c.n) :
    wf (brelse pid i c).2 := by
  by_cases h : holdingsleep c pid i = true
  · rw [brelse_spec pid i c h]
    by_cases hz : (c.bufs i).refcnt - 1 = 0
    · rw [if_pos hz]
      obtain ⟨l, hperm, hrep⟩ := hwf
      have him : i ∈ l := hperm.mem_iff.mpr (List.mem_range.mpr hi)
      obtain ⟨l₁, l₂, rfl⟩ := List.append_of_mem him
      have hnd : (l₁ ++ i :: l₂).Nodup := hperm.nodup_iff.mpr (List.nodup_range _)
      refine ⟨i :: (l₁ ++ l₂), ?_, ?_⟩
      · show (i :: (l₁ ++ l₂)).Perm (List.range (moveToHead _ i).n)
        rw [moveToHead_n]
        exact List.perm_middle.symm.trans hperm
      · apply moveToHead_rep
        · exact ptrRep_congr rfl rfl rfl hrep
        · exact hnd
        · intro x hx
          have hxr : x ∈ List.range c.n := hperm.mem_iff.mp hx
          exact Nat.ne_of_lt (List.mem_range.mp hxr)
    · rw [if_neg hz]
      obtain ⟨l, hperm, hrep⟩ := hwf
      exact ⟨l, hperm, ptrRep_congr rfl rfl rfl hrep⟩
  · rw [brelse_not_holding h]
    exact hwf

theorem wf_applyOp (disk : Nat → Nat → Nat) (c : BCache) (op : Op) (hwf : wf c)
    (hleg : LegalOp c.n op) : wf (applyOp disk c op) := by
  cases op with
  | get pid dev blockno =>
      obtain ⟨h1, h2, h3⟩ := bget_frame pid dev blockno c
      exact wf_congr h1 h2 h3 hwf
  | read pid dev blockno =>
      obtain ⟨h1, h2, h3⟩ := bread_frame disk pid dev blockno c
      exact wf_congr h1 h2 h3 hwf
  | write pid i =>
      show wf (bwrite pid i c).2.1
      rw [bwrite_state]
      exact hwf
  | relse pid i => exact wf_brelse pid i c hwf hleg
  | pin i => exact wf_congr rfl rfl rfl hwf
  | unpin i => exact wf_congr rfl rfl rfl hwf

theorem applyOp_n (disk : Nat → Nat → Nat) (c : BCache) (op : Op) :
    (applyOp disk c op).n = c.n := by
  cases op with
  | get pid dev blockno => exact (bget_frame pid dev blockno c).1
  | read pid dev blockno => exact (bread_frame disk pid dev blockno c).1
  | write pid i =>
      show (bwrite pid i c).2.1.n = c.n
      rw [bwrite_state]
  | relse pid i => exact brelse_n pid i c
  | pin i => rfl
  | unpin i => rfl

theorem run_n (disk : Nat → Nat → Nat) (c : BCache) (ops : List Op) :
    (run disk c ops).n = c.n := by
  induction ops generalizing c with
  | nil => rfl
  | cons op ops ih =>
      show (run disk (applyOp disk c op) ops).n = c.n
      rw [ih, applyOp_n]

theorem wf_run (disk : Nat → Nat → Nat) (c : BCache) (ops : List Op) (hwf : wf c)
    (hleg : ∀ op ∈ ops, LegalOp c.n op) : wf (run disk c ops) := by
  induction ops generalizing c with
  | nil => exact hwf
  | cons op ops ih =>
      show wf (run disk (applyOp disk c op) ops)
      apply ih
      · exact wf_applyOp disk c op hwf (hleg op (List.mem_cons_self _ _))
      · intro op' hop'
        rw [applyOp_n]
        exact hleg op' (List.mem_cons_of_mem _ hop')

/-! The two scans of `bget`, under well-formedness. -/

theorem mruChain_wf {c : BCache} {l : List Nat} (h : wfList c l) : mruChain c = l := by
  obtain ⟨hperm, hrep⟩ := h
  have hnd : l.Nodup := hperm.nodup_iff.mpr (List.nodup_range _)
  have hne : ∀ x ∈ l, x ≠ c.n := fun x hx =>
    Nat.ne_of_lt (List.mem_range.mp (hperm.mem_iff.mp hx))
  have hlen : l.length ≤ c.n :=
    le_of_eq (by rw [hperm.length_eq, List.length_range])
  exact mruChain_rep hrep hnd hne hlen

theorem lruChain_wf {c : BCache} {l : List Nat} (h : wfList c l) : lruChain c = l.reverse := by
  obtain ⟨hperm, hrep⟩ := h
  have hnd : l.Nodup := hperm.nodup_iff.mpr (List.nodup_range _)
  have hne : ∀ x ∈ l, x ≠ c.n := fun x hx =>
    Nat.ne_of_lt (List.mem_range.mp (hperm.mem_iff.mp hx))
  have hlen : l.length ≤ c.n :=
    le_of_eq (by rw [hperm.length_eq, List.length_range])
  exact lruChain_rep hrep hnd hne hlen

/-! Case analysis of `bget`. -/

theorem bget_hit {dev blockno : Nat} {c : BCache} {i : Nat} (pid : Nat)
    (h : (mruChain c).find? (fun j => isHit dev blockno (c.bufs j)) = some i) :
    bget pid dev blockno c =
      (GetRes.ok i, { c with bufs := Function.update c.bufs i ({ c.bufs i with refcnt := (c.bufs i).refcnt + 1, holder := some pid }) }, []) := by
  unfold bget
  rw [h]

theorem bget_evict {dev blockno : Nat} {c : BCache} {i : Nat} (pid : Nat)
    (hmiss : (mruChain c).find? (fun j => isHit dev blockno (c.bufs j)) = none)
    (h : (lruChain c).find? (fun j => (c.bufs j).refcnt == 0) = some i) :
    bget pid dev blockno c =
      (GetRes.ok i, { c with bufs := Function.update c.bufs i ({ c.bufs i with dev := dev, blockno := blockno, valid := false, refcnt := 1, holder := some pid }) }, []) := by
  unfold bget
  rw [hmiss, h]

theorem bget_exhausted {dev blockno : Nat} {c : BCache} (pid : Nat)
    (hmiss : (mruChain c).find? (fun j => isHit dev blockno (c.bufs j)) = none)
    (hfree : (lruChain c).find? (fun j => (c.bufs j).refcnt == 0) = none) :
    bget pid dev blockno c = (GetRes.fatal, c, []) := by
  unfold bget
  rw [hmiss, hfree]

theorem bget_ok_inv {pid dev blockno : Nat} {c : BCache} {i : Nat} {c' : BCache}
    {tr : List DiskOp} (h : bget pid dev blockno c = (GetRes.ok i, c', tr)) :
    ((mruChain c).find? (fun j => isHit dev blockno (c.bufs j)) = some i ∧
      c' = { c with bufs := Function.update c.bufs i ({ c.bufs i with refcnt := (c.bufs i).refcnt + 1, holder := some pid }) } ∧ tr = []) ∨
    ((mruChain c).find? (fun j => isHit dev blockno (c.bufs j)) = none ∧
      (lruChain c).find? (fun j => (c.bufs j).refcnt == 0) = some i ∧
      c' = { c with bufs := Function.update c.bufs i ({ c.bufs i with dev := dev, blockno := blockno, valid := false, refcnt := 1, holder := some pid }) } ∧ tr = []) := by
  cases hfind : (mruChain c).find? (fun j => isHit dev blockno (c.bufs j)) with
  | some i0 =>
      rw [bget_hit pid hfind] at h
      simp only [Prod.mk.injEq, GetRes.ok.injEq] at h
      obtain ⟨h1, h2, h3⟩ := h
      subst h1
      exact Or.inl ⟨rfl, h2.symm, h3.symm⟩
  | none =>
      cases hfree : (lruChain c).find? (fun j => (c.bufs j).refcnt == 0) with
      | some i0 =>
          rw [bget_evict pid hfind hfree] at h
          simp only [Prod.mk.injEq, GetRes.ok.injEq] at h
          obtain ⟨h1, h2, h3⟩ := h
          subst h1
          exact Or.inr ⟨rfl, rfl, h2.symm, h3.symm⟩
      | none =>
          rw [bget_exhausted pid hfind hfree] at h
          simp at h

theorem bget_ok_bound {pid dev blockno : Nat} {c : BCache} {i : Nat} {c' : BCache}
    {tr : List DiskOp} (h : bget pid dev blockno c = (GetRes.ok i, c', tr)) :
    (c'.bufs i).dev = dev ∧ (c'.bufs i).blockno = blockno ∧ tr = [] := by
  rcases bget_ok_inv h with ⟨hf, hc, htr⟩ | ⟨hm, hf, hc, htr⟩
  · have hp := List.find?_some hf
    simp only [isHit, Bool.and_eq_true, beq_iff_eq] at hp
    subst hc
    refine ⟨?_, ?_, htr⟩ <;> simp [Function.update_same, hp.1, hp.2]
  · subst hc
    refine ⟨?_, ?_, htr⟩ <;> simp [Function.update_same]

theorem bread_state (disk : Nat → Nat → Nat) (pid dev blockno : Nat) (c : BCache) :
    (bread disk pid dev blockno c).2.1 = (bget pid dev blockno c).2.1 ∨
    ∃ j, (bread disk pid dev blockno c).2.1 =
      { (bget pid dev blockno c).2.1 with bufs := Function.update (bget pid dev blockno c).2.1.bufs j ({ (bget pid dev blockno c).2.1.bufs j with data := disk ((bget pid dev blockno c).2.1.bufs j).dev ((bget pid dev blockno c).2.1.bufs j).blockno, valid := true }) } := by
  unfold bread
  rcases heq : bget pid dev blockno c with ⟨r, c1, tr⟩
  cases r with
  | ok i =>
      by_cases hv : (c1.bufs i).valid
      · left
        simp [hv]
      · right
        exact ⟨i, by simp [hv]⟩
  | fatal =>
      left
      rfl

/-- C3: for every (device, block_number), a successful `bread` returns a slot
bound to that pair with `valid = true`; the disk-transfer collaborator is
invoked (in read mode, populating the payload) exactly when the slot
produced by `bget` had `valid = false`, and `bget` itself performs no disk
I/O. -/
theorem C3_bread_postcondition (disk : Nat → Nat → Nat) (pid dev blockno : Nat)
    (c : BCache) (i : Nat)
    (h : (bread disk pid dev blockno c).1 = GetRes.ok i) :
    ((bread disk pid dev blockno c).2.1.bufs i).dev = dev ∧
    ((bread disk pid dev blockno c).2.1.bufs i).blockno = blockno ∧
    ((bread disk pid dev blockno c).2.1.bufs i).valid = true ∧
    ((bread disk pid dev blockno c).2.2 =
      if ((bget pid dev blockno c).2.1.bufs i).valid then [] else [DiskOp.rd dev blockno]) ∧
    (bget pid dev blockno c).2.2 = [] := by
  unfold bread at h ⊢
  rcases heq : bget pid dev blockno c with ⟨r, c1, tr⟩
  rw [heq] at h
  cases r with
  | ok j =>
      have hb : (c1.bufs j).dev = dev ∧ (c1.bufs j).blockno = blockno ∧ tr = [] :=
        bget_ok_bound heq
      by_cases hv : (c1.bufs j).valid
      · have hji : j = i := by
          simp only [hv, if_true] at h
          simpa using h
        subst hji
        simp only [hv, if_true]
        exact ⟨hb.1, hb.2.1, trivial, hb.2.2, hb.2.2⟩
      · have hji : j = i := by
          simp only [if_neg hv] at h
          simpa using h
        subst hji
        simp only [if_neg hv]
        refine ⟨?_, ?_, ?_, ?_, hb.2.2⟩
        · simp [Function.update_same, hb.1]
        · simp [Function.update_same, hb.2.1]
        · simp [Function.update_same]
        · rw [hb.2.2, hb.1, hb.2.1]
          simp
  | fatal =>
      simp at h

/-- C5: if no slot is bound to the requested pair and every slot has a
nonzero reference count, `bget` panics (`panic("bget: no buffers")`) rather
than returning, and the state at the panic is exactly the entry state: no
slot identity, valid flag, reference count, or list link has been modified,
and no disk transfer has occurred. -/
theorem C5_capacity_exhaustion_fatal (pid dev blockno : Nat) (c : BCache)
    (hwf : wf c)
    (hmiss : ∀ x, x < c.n → isHit dev blockno (c.bufs x) = false)
    (hbusy : ∀ x, x < c.n → (c.bufs x).refcnt ≠ 0) :
    bget pid dev blockno c = (GetRes.fatal, c, []) := by
  obtain ⟨l, hwl⟩ := hwf
  apply bget_exhausted
  · rw [mruChain_wf hwl]
    apply List.find?_eq_none.mpr
    intro x hx
    have hxn : x < c.n := List.mem_range.mp (hwl.1.mem_iff.mp hx)
    simp [hmiss x hxn]
  · rw [lruChain_wf hwl]
    apply List.find?_eq_none.mpr
    intro x hx
    have hxn : x < c.n :=
      List.mem_range.mp (hwl.1.mem_iff.mp (List.mem_reverse.mp hx))
    simp only [beq_iff_eq]
    simpa using hbusy x hxn

/-- C9: `bwrite` on a slot whose content lock the caller does not hold
panics before any disk transfer (empty trace, state unchanged), and `brelse`
without the lock panics before any state change; when the caller does hold
the lock neither check fires: `bwrite` performs exactly one write transfer
of the slot's block and `brelse` returns normally. -/
theorem C9_lock_protocol (pid i : Nat) (c : BCache) :
    (holdingsleep c pid i = false →
      bwrite pid i c = (PRes.fatal, c, []) ∧ brelse pid i c = (PRes.fatal, c)) ∧
    (holdingsleep c pid i = true →
      bwrite pid i c = (PRes.ok, c, [DiskOp.wr (c.bufs i).dev (c.bufs i).blockno]) ∧
      (brelse pid i c).1 = PRes.ok) := by
  constructor
  · intro h
    have h2 : ¬ holdingsleep c pid i = true := by simp [h]
    constructor
    · unfold bwrite
      rw [if_neg h2]
    · exact brelse_not_holding h2
  · intro h
    constructor
    · unfold bwrite
      rw [if_pos h]
    · rw [brelse_spec pid i c h]

/-- C10: `bget` (on both the hit and the eviction path), `bpin` and `bunpin`
never change any slot's position in the recency list — the `next` and `prev`
maps are untouched — and `brelse` leaves the list untouched whenever the
decremented count is still nonzero; only a release that reaches zero
reorders the list. -/
theorem C10_reorder_only_on_release_to_zero (pid dev blockno i j : Nat) (c : BCache) :
    ((bget pid dev blockno c).2.1.next = c.next ∧ (bget pid dev blockno c).2.1.prev = c.prev) ∧
    ((bpin i c).next = c.next ∧ (bpin i c).prev = c.prev) ∧
    ((bunpin i c).next = c.next ∧ (bunpin i c).prev = c.prev) ∧
    ((c.bufs j).refcnt - 1 ≠ 0 →
      (brelse pid j c).2.next = c.next ∧ (brelse pid j c).2.prev = c.prev) := by
  refine ⟨⟨(bget_frame pid dev blockno c).2.1, (bget_frame pid dev blockno c).2.2⟩,
    ⟨rfl, rfl⟩, ⟨rfl, rfl⟩, ?_⟩
  intro hz
  by_cases h : holdingsleep c pid j = true
  · rw [brelse_spec pid j c h, if_neg hz]
    exact ⟨rfl, rfl⟩
  · rw [brelse_not_holding h]
    exact ⟨rfl, rfl⟩

/-- C2: when no slot is bound to the requested pair and some slot is free,
`bget` selects exactly the first slot with `refcnt == 0` met by the scan
from the least-recently-used end of the recency list (`l` is the list in
MRU-first order, so the scan order is `l.reverse`), and rebinds it: `dev`
and `blockno` become the requested pair, `valid` becomes false, `refcnt`
becomes 1 (and the caller takes its content lock); nothing else changes. -/
theorem C2_eviction_policy (pid dev blockno : Nat) (c : BCache) (l : List Nat) (i : Nat)
    (hwl : wfList c l)
    (hmiss : ∀ x, x < c.n → isHit dev blockno (c.bufs x) = false)
    (hfirst : (l.reverse).find? (fun j => (c.bufs j).refcnt == 0) = some i) :
    bget pid dev blockno c =
      (GetRes.ok i, { c with bufs := Function.update c.bufs i ({ c.bufs i with dev := dev, blockno := blockno, valid := false, refcnt := 1, holder := some pid }) }, []) := by
  apply bget_evict
  · rw [mruChain_wf hwl]
    apply List.find?_eq_none.mpr
    intro x hx
    have hxn : x < c.n := List.mem_range.mp (hwl.1.mem_iff.mp hx)
    simp [hmiss x hxn]
  · rw [lruChain_wf hwl]
    exact hfirst

/-! Acquire coherence across intervening operations: the `AcquireView`
invariant is established by a successful `bget` and preserved by every
legal operation that does not drop the slot's reference count to zero. -/

theorem isHit_pair_eq {dev blockno dev' blockno' : Nat} {b : Buf}
    (h1 : isHit dev blockno b = true) (h2 : isHit dev' blockno' b = true) :
    dev' = dev ∧ blockno' = blockno := by
  simp only [isHit, Bool.and_eq_true, beq_iff_eq] at h1 h2
  omega

theorem holdingsleep_some {c : BCache} {pid i : Nat}
    (h : holdingsleep c pid i = true) : (c.bufs i).holder = some pid := by
  simpa [holdingsleep] using h

theorem find?_isHit_some {dev blockno : Nat} {f : Nat → Buf} {l : List Nat} {i : Nat}
    (h : l.find? (fun j => isHit dev blockno (f j)) = some i) :
    isHit dev blockno (f i) = true := by
  have h2 := List.find?_some h
  exact h2

theorem find?_eq_some_of_imp {p q : Nat → Bool} {l : List Nat} {i : Nat}
    (hp : l.find? p = some i) (hqi : q i = true)
    (himp : ∀ x ∈ l, x ≠ i → q x = true → p x = true) :
    l.find? q = some i := by
  induction l with
  | nil => simp at hp
  | cons a t ih =>
      by_cases hpa : p a = true
      · rw [List.find?_cons_of_pos _ hpa] at hp
        have hai : a = i := by simpa using hp
        subst hai
        exact List.find?_cons_of_pos _ hqi
      · rw [List.find?_cons_of_neg _ (by simpa using hpa)] at hp
        by_cases hqa : q a = true
        · by_cases hai : a = i
          · subst hai
            exact List.find?_cons_of_pos _ hqa
          · exact absurd (himp a (List.mem_cons_self _ _) hai hqa) hpa
        · rw [List.find?_cons_of_neg _ (by simpa using hqa)]
          exact ih hp fun x hx => himp x (List.mem_cons_of_mem _ hx)

theorem find?_drop_false {p : Nat → Bool} {j : Nat} (hj : p j = false) :
    ∀ (l₁ : List Nat) {l₂ : List Nat} {i : Nat},
      (l₁ ++ j :: l₂).find? p = some i → (l₁ ++ l₂).find? p = some i := by
  intro l₁
  induction l₁ with
  | nil =>
      intro l₂ i hp
      rw [List.nil_append] at hp ⊢
      rw [List.find?_cons_of_neg _ (by simp [hj])] at hp
      exact hp
  | cons a t ih =>
      intro l₂ i hp
      rw [List.cons_append] at hp ⊢
      by_cases hpa : p a = true
      · rw [List.find?_cons_of_pos _ hpa] at hp ⊢
        exact hp
      · rw [List.find?_cons_of_neg _ (by simpa using hpa)] at hp ⊢
        exact ih hp

theorem find?_move_false_to_front {p : Nat → Bool} {l₁ l₂ : List Nat} {i j : Nat}
    (hp : (l₁ ++ j :: l₂).find? p = some i) (hj : p j = false) :
    (j :: (l₁ ++ l₂)).find? p = some i := by
  rw [List.find?_cons_of_neg _ (by simp [hj])]
  exact find?_drop_false hj l₁ hp

theorem brelse_zero_bufs (pid j : Nat) (c : BCache) (hold : holdingsleep c pid j = true)
    (hz : (c.bufs j).refcnt - 1 = 0) :
    (brelse pid j c).2.bufs =
      Function.update c.bufs j ({ c.bufs j with refcnt := (c.bufs j).refcnt - 1, holder := none }) := by
  rw [brelse_spec pid j c hold, if_pos hz]
  rfl

theorem brelse_nonzero_state (pid j : Nat) (c : BCache) (hold : holdingsleep c pid j = true)
    (hz : ¬ (c.bufs j).refcnt - 1 = 0) :
    (brelse pid j c).2 =
      { c with bufs := Function.update c.bufs j ({ c.bufs j with refcnt := (c.bufs j).refcnt - 1, holder := none }) } := by
  rw [brelse_spec pid j c hold, if_neg hz]

theorem brelse_zero_wfList (pid j : Nat) {c : BCache} {l : List Nat}
    (hwl : wfList c l) (hold : holdingsleep c pid j = true)
    (hz : (c.bufs j).refcnt - 1 = 0) (hj : j < c.n) :
    wfList (brelse pid j c).2 (j :: l.erase j) := by
  rw [brelse_spec pid j c hold, if_pos hz]
  obtain ⟨hperm, hrep⟩ := hwl
  have hjm : j ∈ l := hperm.mem_iff.mpr (List.mem_range.mpr hj)
  obtain ⟨l₁, l₂, rfl⟩ := List.append_of_mem hjm
  have hnd : (l₁ ++ j :: l₂).Nodup := hperm.nodup_iff.mpr (List.nodup_range _)
  have hjl₁ : j ∉ l₁ := by
    obtain ⟨h1, h2, hd⟩ := List.nodup_append.mp hnd
    exact fun hh => hd hh (List.mem_cons_self _ _)
  have herase : (l₁ ++ j :: l₂).erase j = l₁ ++ l₂ := by
    rw [List.erase_append_right _ hjl₁, List.erase_cons_head]
  rw [herase]
  constructor
  · show (j :: (l₁ ++ l₂)).Perm (List.range (moveToHead _ j).n)
    rw [moveToHead_n]
    exact List.perm_middle.symm.trans hperm
  · apply moveToHead_rep
    · exact ptrRep_congr rfl rfl rfl hrep
    · exact hnd
    · intro x hx
      exact Nat.ne_of_lt (List.mem_range.mp (hperm.mem_iff.mp hx))

theorem AcquireView_update {dev blockno i k : Nat} {s : BCache} {b : Buf}
    (himp : isHit dev blockno b = true → isHit dev blockno (s.bufs k) = true)
    (hki : k = i → isHit dev blockno b = true ∧ 0 < b.refcnt)
    (hh : k < s.n → k ≠ i → isHit dev blockno b = true → b.holder = none)
    (hI : AcquireView dev blockno i s) :
    AcquireView dev blockno i { s with bufs := Function.update s.bufs k b } := by
  obtain ⟨hwf, hfind, hpos, hunl⟩ := hI
  refine ⟨wf_congr rfl rfl rfl hwf, ?_, ?_, ?_⟩
  · rw [show mruChain { s with bufs := Function.update s.bufs k b } = mruChain s from
      mruChain_bufs s _]
    apply find?_eq_some_of_imp hfind
    · show isHit dev blockno (Function.update s.bufs k b i) = true
      by_cases hik : i = k
      · rw [hik, Function.update_same]
        exact (hki hik.symm).1
      · rw [Function.update_noteq hik]
        exact find?_isHit_some hfind
    · intro x hx hxi
      show isHit dev blockno (Function.update s.bufs k b x) = true →
        isHit dev blockno (s.bufs x) = true
      by_cases hxk : x = k
      · rw [hxk, Function.update_same]
        exact himp
      · rw [Function.update_noteq hxk]
        exact fun h => h
  · show 0 < (Function.update s.bufs k b i).refcnt
    by_cases hik : i = k
    · rw [hik, Function.update_same]
      exact (hki hik.symm).2
    · rw [Function.update_noteq hik]
      exact hpos
  · intro j hj hji
    show isHit dev blockno (Function.update s.bufs k b j) = true →
      (Function.update s.bufs k b j).holder = none
    by_cases hjk : j = k
    · rw [hjk, Function.update_same]
      intro hm
      exact hh (hjk ▸ hj) (hjk ▸ hji) hm
    · rw [Function.update_noteq hjk]
      intro hm
      exact hunl j hj hji hm

theorem AcquireView_bget {dev blockno i : Nat} {s : BCache} (pid' dev' blockno' : Nat)
    (hI : AcquireView dev blockno i s) :
    AcquireView dev blockno i (bget pid' dev' blockno' s).2.1 := by
  have hfind := hI.2.1
  have hpi : isHit dev blockno (s.bufs i) = true := find?_isHit_some hfind
  have him : i ∈ mruChain s := List.mem_of_find?_eq_some hfind
  cases hscan : (mruChain s).find? (fun j => isHit dev' blockno' (s.bufs j)) with
  | some k =>
      have hk : isHit dev' blockno' (s.bufs k) = true := find?_isHit_some hscan
      have hs : (bget pid' dev' blockno' s).2.1 =
          { s with bufs := Function.update s.bufs k ({ s.bufs k with refcnt := (s.bufs k).refcnt + 1, holder := some pid' }) } := by
        rw [bget_hit pid' hscan]
      rw [hs]
      refine AcquireView_update ?_ ?_ ?_ hI
      · exact fun hm => hm
      · intro hke
        subst hke
        refine ⟨hpi, ?_⟩
        show 0 < (s.bufs k).refcnt + 1
        have := hI.2.2.1
        omega
      · intro hkn hkne hm
        exfalso
        have hmk : isHit dev blockno (s.bufs k) = true := hm
        obtain ⟨h1, h2⟩ := isHit_pair_eq hmk hk
        subst h1
        subst h2
        rw [hfind] at hscan
        have hik : i = k := by injection hscan
        exact hkne hik.symm
  | none =>
      cases hfree : (lruChain s).find? (fun j => (s.bufs j).refcnt == 0) with
      | some k =>
          have hs : (bget pid' dev' blockno' s).2.1 =
              { s with bufs := Function.update s.bufs k ({ s.bufs k with dev := dev', blockno := blockno', valid := false, refcnt := 1, holder := some pid' }) } := by
            rw [bget_evict pid' hscan hfree]
          rw [hs]
          have hk0 : (s.bufs k).refcnt = 0 := by simpa using List.find?_some hfree
          have hkne : k ≠ i := by
            intro he
            have hp0 := hI.2.2.1
            rw [← he] at hp0
            omega
          have hmiss : ∀ x ∈ mruChain s, isHit dev' blockno' (s.bufs x) = false := by
            intro x hx
            simpa using List.find?_eq_none.mp hscan x hx
          have hnm : isHit dev blockno ({ s.bufs k with dev := dev', blockno := blockno', valid := false, refcnt := 1, holder := some pid' } : Buf) = false := by
            cases hcase : isHit dev blockno ({ s.bufs k with dev := dev', blockno := blockno', valid := false, refcnt := 1, holder := some pid' } : Buf) with
            | false => rfl
            | true =>
                exfalso
                have hpair : dev' = dev ∧ blockno' = blockno := by
                  simpa [isHit] using hcase
                obtain ⟨h1, h2⟩ := hpair
                subst h1
                subst h2
                exact absurd (hmiss i him) (by simp [hpi])
          refine AcquireView_update ?_ ?_ ?_ hI
          · intro hm
            simp [hnm] at hm
          · exact fun hke => absurd hke hkne
          · intro hkn hkne2 hm
            simp [hnm] at hm
      | none =>
          have hs : (bget pid' dev' blockno' s).2.1 = s := by
            rw [bget_exhausted pid' hscan hfree]
          rw [hs]
          exact hI

theorem AcquireView_applyOp (disk : Nat → Nat → Nat) {dev blockno i : Nat} {s : BCache}
    (op : Op) (hI : AcquireView dev blockno i s) (hleg : LegalOp s.n op)
    (hpost : 0 < ((applyOp disk s op).bufs i).refcnt) :
    AcquireView dev blockno i (applyOp disk s op) := by
  cases op with
  | get pid' dev' blockno' =>
      exact AcquireView_bget pid' dev' blockno' hI
  | read pid' dev' blockno' =>
      have h1 : AcquireView dev blockno i (bget pid' dev' blockno' s).2.1 :=
        AcquireView_bget pid' dev' blockno' hI
      show AcquireView dev blockno i (bread disk pid' dev' blockno' s).2.1
      rcases bread_state disk pid' dev' blockno' s with heq | ⟨m, heq⟩
      · rw [heq]
        exact h1
      · rw [heq]
        refine AcquireView_update ?_ ?_ ?_ h1
        · exact fun hm => hm
        · intro hme
          refine ⟨?_, ?_⟩
          · show isHit dev blockno ((bget pid' dev' blockno' s).2.1.bufs m) = true
            rw [hme]
            exact find?_isHit_some h1.2.1
          · show 0 < ((bget pid' dev' blockno' s).2.1.bufs m).refcnt
            rw [hme]
            exact h1.2.2.1
        · intro hmn hmi hm
          show ((bget pid' dev' blockno' s).2.1.bufs m).holder = none
          exact h1.2.2.2 m hmn hmi hm
  | write pid' j =>
      show AcquireView dev blockno i (bwrite pid' j s).2.1
      rw [bwrite_state]
      exact hI
  | relse pid' j =>
      show AcquireView dev blockno i (brelse pid' j s).2
      by_cases hold : holdingsleep s pid' j = true
      · have hpost' : 0 < ((brelse pid' j s).2.bufs i).refcnt := hpost
        by_cases hz : (s.bufs j).refcnt - 1 = 0
        · -- release to zero: the slot moves to the head of the recency list,
          -- but it cannot be slot i (the count would be zero) and it cannot
          -- be a duplicate of the pair (it was lock-held, duplicates are not)
          have hji : j ≠ i := by
            intro he
            rw [brelse_zero_bufs pid' j s hold hz, ← he, Function.update_same] at hpost'
            have hx : 0 < (s.bufs j).refcnt - 1 := hpost'
            omega
          have hjn : j < s.n := hleg
          have hjmatch : isHit dev blockno (s.bufs j) = false := by
            cases hc : isHit dev blockno (s.bufs j) with
            | false => rfl
            | true =>
                exfalso
                have hn := hI.2.2.2 j hjn hji hc
                rw [holdingsleep_some hold] at hn
                exact Option.noConfusion hn
          obtain ⟨l, hwl⟩ := hI.1
          have hwl' : wfList (brelse pid' j s).2 (j :: l.erase j) :=
            brelse_zero_wfList pid' j hwl hold hz hjn
          have hb := brelse_zero_bufs pid' j s hold hz
          refine ⟨⟨_, hwl'⟩, ?_, ?_, ?_⟩
          · rw [mruChain_wf hwl', hb]
            have hcong : ∀ x ∈ (j :: l.erase j),
                isHit dev blockno (Function.update s.bufs j ({ s.bufs j with refcnt := (s.bufs j).refcnt - 1, holder := none }) x) =
                  isHit dev blockno (s.bufs x) := by
              intro x hx
              by_cases hxj : x = j
              · rw [hxj, Function.update_same]
                rfl
              · rw [Function.update_noteq hxj]
            rw [find?_congr hcong]
            have hfl : l.find? (fun x => isHit dev blockno (s.bufs x)) = some i := by
              have h0 := hI.2.1
              rw [mruChain_wf hwl] at h0
              exact h0
            have hjl : j ∈ l := hwl.1.mem_iff.mpr (List.mem_range.mpr hjn)
            obtain ⟨l₁, l₂, hldec⟩ := List.append_of_mem hjl
            have hnd : l.Nodup := hwl.1.nodup_iff.mpr (List.nodup_range _)
            have hjl₁ : j ∉ l₁ := by
              rw [hldec] at hnd
              obtain ⟨h1, h2, hd⟩ := List.nodup_append.mp hnd
              exact fun hh => hd hh (List.mem_cons_self _ _)
            have herase : l.erase j = l₁ ++ l₂ := by
              rw [hldec, List.erase_append_right _ hjl₁, List.erase_cons_head]
            rw [herase]
            apply find?_move_false_to_front
            · rw [← hldec]
              exact hfl
            · exact hjmatch
          · rw [hb, Function.update_noteq hji.symm]
            exact hI.2.2.1
          · intro x hx hxi hm
            rw [hb] at hm ⊢
            by_cases hxj : x = j
            · rw [hxj, Function.update_same] at hm
              have hm' : isHit dev blockno (s.bufs j) = true := hm
              rw [hjmatch] at hm'
              exact Bool.noConfusion hm'
            · rw [Function.update_noteq hxj] at hm ⊢
              have hxn : x < s.n := by
                have hx2 := hx
                rw [brelse_n] at hx2
                exact hx2
              exact hI.2.2.2 x hxn hxi hm
        · rw [brelse_nonzero_state pid' j s hold hz]
          refine AcquireView_update ?_ ?_ ?_ hI
          · exact fun hm => hm
          · intro hje
            refine ⟨?_, ?_⟩
            · show isHit dev blockno (s.bufs j) = true
              rw [hje]
              exact find?_isHit_some hI.2.1
            · show 0 < (s.bufs j).refcnt - 1
              have h1 : 0 < (s.bufs j).refcnt := by rw [hje]; exact hI.2.2.1
              omega
          · intro hjn2 hji2 hm
            show (none : Option Nat) = none
            rfl
      · have hs : (brelse pid' j s).2 = s := by rw [brelse_not_holding hold]
        rw [hs]
        exact hI
  | pin j =>
      show AcquireView dev blockno i { s with bufs := Function.update s.bufs j ({ s.bufs j with refcnt := (s.bufs j).refcnt + 1 }) }
      refine AcquireView_update ?_ ?_ ?_ hI
      · exact fun hm => hm
      · intro hje
        refine ⟨?_, ?_⟩
        · show isHit dev blockno (s.bufs j) = true
          rw [hje]
          exact find?_isHit_some hI.2.1
        · show 0 < (s.bufs j).refcnt + 1
          have h1 : 0 < (s.bufs j).refcnt := by rw [hje]; exact hI.2.2.1
          omega
      · intro hjn hji hm
        show (s.bufs j).holder = none
        exact hI.2.2.2 j hjn hji hm
  | unpin j =>
      have hpost' : 0 < ((bunpin j s).bufs i).refcnt := hpost
      show AcquireView dev blockno i { s with bufs := Function.update s.bufs j ({ s.bufs j with refcnt := (s.bufs j).refcnt - 1 }) }
      refine AcquireView_update ?_ ?_ ?_ hI
      · exact fun hm => hm
      · intro hje
        refine ⟨?_, ?_⟩
        · show isHit dev blockno (s.bufs j) = true
          rw [hje]
          exact find?_isHit_some hI.2.1
        · show 0 < (s.bufs j).refcnt - 1
          have h2 : 0 < (Function.update s.bufs j ({ s.bufs j with refcnt := (s.bufs j).refcnt - 1 }) i).refcnt := hpost'
          rw [← hje, Function.update_same] at h2
          exact h2
      · intro hjn hji hm
        show (s.bufs j).holder = none
        exact hI.2.2.2 j hjn hji hm

theorem AcquireView_run (disk : Nat → Nat → Nat) {dev blockno i : Nat} {s : BCache}
    {ops : List Op} (hI : AcquireView dev blockno i s)
    (hleg : ∀ op ∈ ops, LegalOp s.n op) (hkeep : KeepsRef disk i s ops) :
    AcquireView dev blockno i (run disk s ops) := by
  induction ops generalizing s with
  | nil => exact hI
  | cons op ops ih =>
      cases hkeep with
      | cons hpost hrest =>
          show AcquireView dev blockno i (run disk (applyOp disk s op) ops)
          apply ih
          · exact AcquireView_applyOp disk op hI (hleg op (List.mem_cons_self _ _)) hpost
          · intro op2 h2
            rw [applyOp_n]
            exact hleg op2 (List.mem_cons_of_mem _ h2)
          · exact hrest

theorem AcquireView_first {pid dev blockno : Nat} {c c1 : BCache} {i : Nat}
    {tr : List DiskOp} (hwf : wf c) (hnn : 0 ≤ (c.bufs i).refcnt)
    (hdup : ∀ j, j < c.n → j ≠ i → isHit dev blockno (c.bufs j) = true →
      (c.bufs j).holder = none)
    (h1 : bget pid dev blockno c = (GetRes.ok i, c1, tr)) :
    AcquireView dev blockno i c1 := by
  obtain ⟨l, hwl⟩ := hwf
  rcases bget_ok_inv h1 with ⟨hf, hc1, htr⟩ | ⟨hm, hf, hc1, htr⟩
  · -- hit path: the chain and every slot's identity are unchanged
    refine ⟨?_, ?_, ?_, ?_⟩
    · rw [hc1]
      exact wf_congr rfl rfl rfl ⟨l, hwl⟩
    · have hmru1 : mruChain c1 = mruChain c := by rw [hc1]; exact mruChain_bufs c _
      have hp : ∀ x, isHit dev blockno (c1.bufs x) = isHit dev blockno (c.bufs x) := by
        intro x
        rw [hc1]
        by_cases hx : x = i
        · subst hx
          simp [Function.update_same, isHit]
        · simp [Function.update_noteq hx]
      rw [hmru1, find?_congr (fun x _ => hp x)]
      exact hf
    · rw [hc1]
      show 0 < (Function.update c.bufs i ({ c.bufs i with refcnt := (c.bufs i).refcnt + 1, holder := some pid }) i).refcnt
      rw [Function.update_same]
      show 0 < (c.bufs i).refcnt + 1
      omega
    · intro j hj hmj
      intro hmatch
      rw [hc1] at hj hmatch ⊢
      have hjn : j < c.n := hj
      have hmatch' : isHit dev blockno (Function.update c.bufs i ({ c.bufs i with refcnt := (c.bufs i).refcnt + 1, holder := some pid }) j) = true := hmatch
      rw [Function.update_noteq hmj] at hmatch'
      show (Function.update c.bufs i ({ c.bufs i with refcnt := (c.bufs i).refcnt + 1, holder := some pid }) j).holder = none
      rw [Function.update_noteq hmj]
      exact hdup j hjn hmj hmatch'
  · -- eviction path: the rebound slot is now the unique hit
    refine ⟨?_, ?_, ?_, ?_⟩
    · rw [hc1]
      exact wf_congr rfl rfl rfl ⟨l, hwl⟩
    · have hmru1 : mruChain c1 = mruChain c := by rw [hc1]; exact mruChain_bufs c _
      have hmiss : ∀ j ∈ mruChain c, isHit dev blockno (c.bufs j) = false := by
        intro j hj
        have hj2 := List.find?_eq_none.mp hm j hj
        simpa using hj2
      have hi_l : i ∈ l := by
        have hmem := List.mem_of_find?_eq_some hf
        rw [lruChain_wf hwl] at hmem
        exact List.mem_reverse.mp hmem
      have hi_mru : i ∈ mruChain c := by rw [mruChain_wf hwl]; exact hi_l
      rw [hmru1]
      apply find?_eq_some_unique hi_mru
      · rw [hc1]
        simp [Function.update_same, isHit]
      · intro j hj hji
        rw [hc1]
        have hbj : Function.update c.bufs i ({ c.bufs i with dev := dev, blockno := blockno, valid := false, refcnt := 1, holder := some pid }) j = c.bufs j :=
          Function.update_noteq hji _ _
        show isHit dev blockno (Function.update c.bufs i _ j) = false
        rw [hbj]
        exact hmiss j hj
    · rw [hc1]
      show 0 < (Function.update c.bufs i ({ c.bufs i with dev := dev, blockno := blockno, valid := false, refcnt := 1, holder := some pid }) i).refcnt
      rw [Function.update_same]
      show (0 : Int) < 1
      decide
    · intro j hj hmj hmatch
      exfalso
      rw [hc1] at hj hmatch
      have hjn : j < c.n := hj
      have hmatch' : isHit dev blockno (Function.update c.bufs i ({ c.bufs i with dev := dev, blockno := blockno, valid := false, refcnt := 1, holder := some pid }) j) = true := hmatch
      rw [Function.update_noteq hmj] at hmatch'
      have hmiss : ∀ x ∈ mruChain c, isHit dev blockno (c.bufs x) = false := by
        intro x hx
        simpa using List.find?_eq_none.mp hm x hx
      have hjl : j ∈ mruChain c := by
        rw [mruChain_wf hwl]
        exact hwl.1.mem_iff.mpr (List.mem_range.mpr hjn)
      rw [hmiss j hjl] at hmatch'
      exact Bool.noConfusion hmatch'

/-- C1: acquire coherence across intervening operations.  Take a well-formed
cache in which slot `i`'s count is not negative and every *other* slot
momentarily bound to `(dev, blockno)` is not lock-held (both conditions hold
in every state reachable from construction: counts stay nonnegative, and
`bget` hands a slot's lock only to the first match of its scan, while
duplicate bindings arise only from the shared all-zero identity of
construction).  If `bget(dev, blockno)` answers with slot `i`, then after
*any* sequence of further operations that address real slots and never drop
slot `i`'s reference count to zero — the claim's "without an intervening
`release` that drops its `ref_count` to zero" — a second `bget` for the
same pair still returns slot `i`, which is still bound to `(dev, blockno)`;
the second call only increments that slot's reference count (and records
the new lock holder) — its device, block number, valid flag and payload
are unchanged, as are all other slots and the whole recency list. -/
theorem C1_acquire_coherence (disk : Nat → Nat → Nat) (pid pid2 dev blockno : Nat)
    (c c1 : BCache) (i : Nat) (tr : List DiskOp) (ops : List Op)
    (hwf : wf c) (hnn : 0 ≤ (c.bufs i).refcnt)
    (hdup : ∀ j, j < c.n → j ≠ i → isHit dev blockno (c.bufs j) = true →
      (c.bufs j).holder = none)
    (h1 : bget pid dev blockno c = (GetRes.ok i, c1, tr))
    (hleg : ∀ op ∈ ops, LegalOp c1.n op)
    (hkeep : KeepsRef disk i c1 ops) :
    ∃ c2, bget pid2 dev blockno (run disk c1 ops) = (GetRes.ok i, c2, []) ∧
      ((run disk c1 ops).bufs i).dev = dev ∧
      ((run disk c1 ops).bufs i).blockno = blockno ∧
      c2.bufs i = { (run disk c1 ops).bufs i with
                      refcnt := ((run disk c1 ops).bufs i).refcnt + 1,
                      holder := some pid2 } ∧
      (∀ j, j ≠ i → c2.bufs j = (run disk c1 ops).bufs j) ∧
      c2.next = (run disk c1 ops).next ∧ c2.prev = (run disk c1 ops).prev ∧
      c2.n = (run disk c1 ops).n := by
  have hview1 : AcquireView dev blockno i c1 := AcquireView_first hwf hnn hdup h1
  have hview2 : AcquireView dev blockno i (run disk c1 ops) :=
    AcquireView_run disk hview1 hleg hkeep
  have hfind2 := hview2.2.1
  have hbound : isHit dev blockno ((run disk c1 ops).bufs i) = true :=
    find?_isHit_some hfind2
  simp only [isHit, Bool.and_eq_true, beq_iff_eq] at hbound
  refine ⟨_, bget_hit pid2 hfind2, hbound.1, hbound.2, ?_, ?_, rfl, rfl, rfl⟩
  · show Function.update (run disk c1 ops).bufs i _ i = _
    rw [Function.update_same]
  · intro j hj
    show Function.update (run disk c1 ops).bufs i _ j = (run disk c1 ops).bufs j
    exact Function.update_noteq hj _ _

/-- C4: `brelse` on a slot whose content lock the caller holds releases the
lock and decrements the slot's reference count, touching no other slot; if
the count reaches zero the slot is unlinked and reinserted at the
most-recently-used end, so the recency order becomes `i :: l.erase i`;
if the count stays nonzero, every slot's list position (the whole `next`
and `prev` maps) is unchanged. -/
theorem C4_release_semantics (pid i : Nat) (c : BCache) (l : List Nat)
    (hwl : wfList c l) (hold : holdingsleep c pid i = true) (hi : i < c.n) :
    ∃ c', brelse pid i c = (PRes.ok, c') ∧
      c'.bufs = Function.update c.bufs i ({ c.bufs i with refcnt := (c.bufs i).refcnt - 1, holder := none }) ∧
      c'.n = c.n ∧
      ((c.bufs i).refcnt - 1 = 0 →
        ptrRep c' (i :: l.erase i) ∧ (i :: l.erase i).Perm (List.range c.n)) ∧
      ((c.bufs i).refcnt - 1 ≠ 0 → c'.next = c.next ∧ c'.prev = c.prev) := by
  rw [brelse_spec pid i c hold]
  by_cases hz : (c.bufs i).refcnt - 1 = 0
  · rw [if_pos hz]
    refine ⟨_, rfl, ?_, ?_, ?_, fun hnz => absurd hz hnz⟩
    · rw [moveToHead_bufs]
    · rw [moveToHead_n]
    · intro _
      obtain ⟨hperm, hrep⟩ := hwl
      have him : i ∈ l := hperm.mem_iff.mpr (List.mem_range.mpr hi)
      obtain ⟨l₁, l₂, rfl⟩ := List.append_of_mem him
      have hnd : (l₁ ++ i :: l₂).Nodup := hperm.nodup_iff.mpr (List.nodup_range _)
      have hil₁ : i ∉ l₁ := by
        obtain ⟨h1, h2, hd⟩ := List.nodup_append.mp hnd
        exact fun hh => hd hh (List.mem_cons_self _ _)
      have herase : (l₁ ++ i :: l₂).erase i = l₁ ++ l₂ := by
        rw [List.erase_append_right _ hil₁, List.erase_cons_head]
      rw [herase]
      constructor
      · apply moveToHead_rep
        · exact ptrRep_congr rfl rfl rfl hrep
        · exact hnd
        · intro x hx
          exact Nat.ne_of_lt (List.mem_range.mp (hperm.mem_iff.mp hx))
      · exact List.perm_middle.symm.trans hperm
  · rw [if_neg hz]
    exact ⟨_, rfl, rfl, rfl, fun hzz => absurd hzz hz, fun _ => ⟨rfl, rfl⟩⟩

/-! Preservation of pairwise-distinct bindings. -/

theorem dist_of_bufs_id {c c' : BCache} (hn : c'.n = c.n)
    (h : ∀ x, x < c.n →
      (c'.bufs x).dev = (c.bufs x).dev ∧ (c'.bufs x).blockno = (c.bufs x).blockno)
    (hd : DistinctBindings c) : DistinctBindings c' := by
  intro a ha b hb hab hcontra
  rw [hn] at ha hb
  obtain ⟨hda, hba⟩ := h a ha
  obtain ⟨hdb, hbb⟩ := h b hb
  rw [hda, hba, hdb, hbb] at hcontra
  exact hd a ha b hb hab hcontra

theorem distinct_bget (pid dev blockno : Nat) (c : BCache) (hwf : wf c)
    (hd : DistinctBindings c) : DistinctBindings (bget pid dev blockno c).2.1 := by
  obtain ⟨l, hwl⟩ := hwf
  cases hfind : (mruChain c).find? (fun j => isHit dev blockno (c.bufs j)) with
  | some i0 =>
      rw [bget_hit pid hfind]
      refine dist_of_bufs_id ?_ ?_ hd
      · rfl
      intro x hx
      by_cases hxi : x = i0
      · subst hxi
        simp [Function.update_same]
      · simp [Function.update_noteq hxi]
  | none =>
      cases hfree : (lruChain c).find? (fun j => (c.bufs j).refcnt == 0) with
      | some i0 =>
          rw [bget_evict pid hfind hfree]
          have hmiss : ∀ j, j < c.n →
              ¬((c.bufs j).dev = dev ∧ (c.bufs j).blockno = blockno) := by
            intro j hj
            have hjl : j ∈ mruChain c := by
              rw [mruChain_wf hwl]
              exact hwl.1.mem_iff.mpr (List.mem_range.mpr hj)
            have hh := List.find?_eq_none.mp hfind j hjl
            simp only [isHit, Bool.and_eq_true, beq_iff_eq] at hh
            tauto
          intro a ha b hb hab hcontra
          replace ha : a < c.n := ha
          replace hb : b < c.n := hb
          by_cases hai : a = i0
          · subst hai
            have hbi : b ≠ a := fun hh => hab hh.symm
            simp only [Function.update_same, Function.update_noteq hbi] at hcontra
            exact hmiss b hb ⟨hcontra.1.symm, hcontra.2.symm⟩
          · by_cases hbi : b = i0
            · subst hbi
              simp only [Function.update_same, Function.update_noteq hai] at hcontra
              exact hmiss a ha ⟨hcontra.1, hcontra.2⟩
            · simp only [Function.update_noteq hai, Function.update_noteq hbi] at hcontra
              exact hd a ha b hb hab hcontra
      | none =>
          rw [bget_exhausted pid hfind hfree]
          exact hd

theorem distinct_applyOp (disk : Nat → Nat → Nat) (c : BCache) (op : Op)
    (hwf : wf c) (hd : DistinctBindings c) : DistinctBindings (applyOp disk c op) := by
  cases op with
  | get pid dev blockno => exact distinct_bget pid dev blockno c hwf hd
  | read pid dev blockno =>
      show DistinctBindings (bread disk pid dev blockno c).2.1
      have hg := distinct_bget pid dev blockno c hwf hd
      rcases bread_state disk pid dev blockno c with hs | ⟨j, hs⟩
      · rw [hs]; exact hg
      · rw [hs]
        refine dist_of_bufs_id ?_ ?_ hg
        · rfl
        intro x hx
        by_cases hxj : x = j
        · subst hxj
          simp [Function.update_same]
        · simp [Function.update_noteq hxj]
  | write pid i =>
      show DistinctBindings (bwrite pid i c).2.1
      rw [bwrite_state]
      exact hd
  | relse pid i =>
      show DistinctBindings (brelse pid i c).2
      by_cases h : holdingsleep c pid i = true
      · rw [brelse_spec pid i c h]
        split
        · refine dist_of_bufs_id ?_ ?_ hd
          · rw [moveToHead_n]
          · rw [moveToHead_bufs]
            intro x hx
            by_cases hxi : x = i
            · subst hxi
              simp [Function.update_same]
            · simp [Function.update_noteq hxi]
        · refine dist_of_bufs_id ?_ ?_ hd
          · rfl
          intro x hx
          by_cases hxi : x = i
          · subst hxi
            simp [Function.update_same]
          · simp [Function.update_noteq hxi]
      · rw [brelse_not_holding h]
        exact hd
  | pin i =>
      show DistinctBindings (bpin i c)
      refine dist_of_bufs_id ?_ ?_ hd
      · rfl
      intro x hx
      by_cases hxi : x = i
      · subst hxi
        simp [bpin, Function.update_same]
      · simp [bpin, Function.update_noteq hxi]
  | unpin i =>
      show DistinctBindings (bunpin i c)
      refine dist_of_bufs_id ?_ ?_ hd
      · rfl
      intro x hx
      by_cases hxi : x = i
      · subst hxi
        simp [bunpin, Function.update_same]
      · simp [bunpin, Function.update_noteq hxi]

theorem distinct_run (disk : Nat → Nat → Nat) (c : BCache) (ops : List Op)
    (hwf : wf c) (hleg : ∀ op ∈ ops, LegalOp c.n op) (hd : DistinctBindings c) :
    DistinctBindings (run disk c ops) := by
  induction ops generalizing c with
  | nil => exact hd
  | cons op ops ih =>
      show DistinctBindings (run disk (applyOp disk c op) ops)
      apply ih
      · exact wf_applyOp disk c op hwf (hleg op (List.mem_cons_self _ _))
      · intro op2 hop2
        rw [applyOp_n]
        exact hleg op2 (List.mem_cons_of_mem _ hop2)
      · exact distinct_applyOp disk c op hwf hd

/-! Reference counts: nonnegativity under the caller discipline. -/

theorem binit_bufs (n : Nat) : ∀ x, (binit n).bufs x = Buf.zeroed := by
  suffices h : ∀ k x, ((List.range k).foldl insertAtHead (binitStart n)).bufs x = Buf.zeroed by
    exact h n
  intro k
  induction k with
  | zero => intro x; rfl
  | succ k ih =>
      intro x
      rw [List.range_succ, List.foldl_append, List.foldl_cons, List.foldl_nil,
        insertAtHead_bufs]
      by_cases hx : x = k
      · subst hx
        rw [Function.update_same, ih]
        rfl
      · rw [Function.update_noteq hx]
        exact ih x

theorem nonneg_bget (pid dev blockno : Nat) (c : BCache) (h0 : NonnegRef c) :
    NonnegRef (bget pid dev blockno c).2.1 := by
  intro x
  cases hfind : (mruChain c).find? (fun j => isHit dev blockno (c.bufs j)) with
  | some i0 =>
      rw [bget_hit pid hfind]
      by_cases hx : x = i0
      · subst hx
        simp only [Function.update_same]
        have := h0 x
        omega
      · simp only [Function.update_noteq hx]
        exact h0 x
  | none =>
      cases hfree : (lruChain c).find? (fun j => (c.bufs j).refcnt == 0) with
      | some i0 =>
          rw [bget_evict pid hfind hfree]
          by_cases hx : x = i0
          · subst hx
            simp [Function.update_same]
          · simp only [Function.update_noteq hx]
            exact h0 x
      | none =>
          rw [bget_exhausted pid hfind hfree]
          exact h0 x

theorem nonneg_applyOp (disk : Nat → Nat → Nat) (c : BCache) (op : Op)
    (h0 : NonnegRef c) (hok : OkOp c op) : NonnegRef (applyOp disk c op) := by
  cases op with
  | get pid dev blockno =>
      intro x
      show 0 ≤ ((bget pid dev blockno c).2.1.bufs x).refcnt
      exact nonneg_bget pid dev blockno c h0 x
  | read pid dev blockno =>
      intro x
      show 0 ≤ ((bread disk pid dev blockno c).2.1.bufs x).refcnt
      have hg : NonnegRef (bget pid dev blockno c).2.1 :=
        nonneg_bget pid dev blockno c h0
      rcases bread_state disk pid dev blockno c with hs | ⟨j, hs⟩
      · rw [hs]; exact hg x
      · rw [hs]
        by_cases hx : x = j
        · subst hx
          simp only [Function.update_same]
          exact hg x
        · simp only [Function.update_noteq hx]
          exact hg x
  | write pid i =>
      intro x
      show 0 ≤ ((bwrite pid i c).2.1.bufs x).refcnt
      rw [bwrite_state]
      exact h0 x
  | relse pid i =>
      intro x
      show 0 ≤ ((brelse pid i c).2.bufs x).refcnt
      have hpos : 0 < (c.bufs i).refcnt := hok
      by_cases h : holdingsleep c pid i = true
      · rw [brelse_spec pid i c h]
        have hbufs : ∀ y, 0 ≤ ((Function.update c.bufs i ({ c.bufs i with refcnt := (c.bufs i).refcnt - 1, holder := none })) y).refcnt := by
          intro y
          by_cases hy : y = i
          · subst hy
            simp only [Function.update_same]
            omega
          · simp only [Function.update_noteq hy]
            exact h0 y
        split
        · rw [moveToHead_bufs]
          exact hbufs x
        · exact hbufs x
      · rw [brelse_not_holding h]
        exact h0 x
  | pin i =>
      intro x
      show 0 ≤ ((bpin i c).bufs x).refcnt
      by_cases hx : x = i
      · subst hx
        simp only [bpin, Function.update_same]
        have := h0 x
        omega
      · simp only [bpin, Function.update_noteq hx]
        exact h0 x
  | unpin i =>
      intro x
      show 0 ≤ ((bunpin i c).bufs x).refcnt
      have hpos : 0 < (c.bufs i).refcnt := hok
      by_cases hx : x = i
      · subst hx
        simp only [bunpin, Function.update_same]
        omega
      · simp only [bunpin, Function.update_noteq hx]
        exact h0 x

theorem nonneg_run (disk : Nat → Nat → Nat) (c : BCache) (ops : List Op)
    (hgood : GoodSeq disk c ops) (h0 : NonnegRef c) : NonnegRef (run disk c ops) := by
  induction hgood with
  | nil c => exact h0
  | cons hok hrest ih => exact ih (nonneg_applyOp _ _ _ h0 hok)

/-! The doubly linked structure: mutual inverses from well-formedness. -/

theorem wf_inverse {c : BCache} {l : List Nat} (hwl : wfList c l) :
    ∀ x, x ≤ c.n → c.prev (c.next x) = x ∧ c.next (c.prev x) = x := by
  obtain ⟨hperm, hrep⟩ := hwl
  have hnd : l.Nodup := hperm.nodup_iff.mpr (List.nodup_range _)
  have hne : ∀ y ∈ l, y ≠ c.n := fun y hy =>
    Nat.ne_of_lt (List.mem_range.mp (hperm.mem_iff.mp hy))
  intro x hx
  rcases Nat.lt_or_ge x c.n with hlt | hge
  · -- a real slot: x occurs in the order list
    have hxl : x ∈ l := hperm.mem_iff.mpr (List.mem_range.mpr hlt)
    obtain ⟨u, v, rfl⟩ := List.append_of_mem hxl
    obtain ⟨hndu, hndxv, hdisj⟩ := List.nodup_append.mp hnd
    have hxu : x ∉ u := fun hh => hdisj hh (List.mem_cons_self _ _)
    obtain ⟨hxv, hndv⟩ := List.nodup_cons.mp hndxv
    have hxn : x ≠ c.n := hne x hxl
    have hnx : c.next x = v.headD c.n := by
      rw [(hrep x (List.mem_cons_of_mem _ hxl)).1]
      exact nextF_mem_split hxu hxn v
    have hpx : c.prev x = u.reverse.headD c.n := by
      rw [(hrep x (List.mem_cons_of_mem _ hxl)).2]
      exact prevF_mem_split hxv hxn u
    constructor
    · rw [hnx]
      cases v with
      | nil =>
          simp only [List.headD_nil]
          rw [(hrep c.n (List.mem_cons_self _ _)).2, prevF_sentinel]
          simp [List.reverse_append]
      | cons w v' =>
          simp only [List.headD_cons]
          have hw_mem : w ∈ u ++ x :: w :: v' := by simp
          have hwn : w ≠ c.n := hne w hw_mem
          have hwv' : w ∉ v' := (List.nodup_cons.mp (List.nodup_cons.mp hndxv).2).1
          rw [(hrep w (List.mem_cons_of_mem _ hw_mem)).2]
          have hsh : u ++ x :: w :: v' = (u ++ [x]) ++ w :: v' := by simp
          rw [hsh, prevF_mem_split hwv' hwn (u ++ [x])]
          simp
    · rw [hpx]
      cases hu : u.reverse with
      | nil =>
          have hu2 : u = [] := by simpa using congrArg List.reverse hu
          simp only [List.headD_nil]
          rw [(hrep c.n (List.mem_cons_self _ _)).1, nextF_sentinel, hu2]
          simp
      | cons q u2 =>
          have hu2 : u = u2.reverse ++ [q] := by
            have hr := congrArg List.reverse hu
            simpa using hr
          simp only [List.headD_cons]
          have hq_mem : q ∈ u := by rw [hu2]; simp
          have hqn : q ≠ c.n := hne q (List.mem_append_left _ hq_mem)
          have hq_notin : q ∉ u2.reverse := by
            have hndu2 : (u2.reverse ++ [q]).Nodup := hu2 ▸ hndu
            obtain ⟨h1, h2, hd⟩ := List.nodup_append.mp hndu2
            exact fun hh => hd hh (List.mem_cons_self _ _)
          have hq_l : q ∈ u ++ x :: v := List.mem_append_left _ hq_mem
          rw [(hrep q (List.mem_cons_of_mem _ hq_l)).1]
          have hsh : u ++ x :: v = u2.reverse ++ q :: (x :: v) := by rw [hu2]; simp
          rw [hsh, nextF_mem_split hq_notin hqn (x :: v)]
          simp
  · -- the sentinel
    have hxn : x = c.n := Nat.le_antisymm hx hge
    subst hxn
    cases hl : l with
    | nil =>
        have h1 : c.next c.n = c.n := by
          rw [(hrep c.n (List.mem_cons_self _ _)).1, hl]
          simp [nextF]
        have h2 : c.prev c.n = c.n := by
          rw [(hrep c.n (List.mem_cons_self _ _)).2, hl]
          simp [prevF, nextF]
        rw [h1, h2]
        exact ⟨rfl, h1⟩
    | cons a l2 =>
        subst hl
        have hnext : c.next c.n = a := by
          rw [(hrep c.n (List.mem_cons_self _ _)).1, nextF_sentinel]
          simp
        have han : a ≠ c.n := hne a (List.mem_cons_self _ _)
        have hal2 : a ∉ l2 := (List.nodup_cons.mp hnd).1
        have hprev_a : c.prev a = c.n := by
          rw [(hrep a (List.mem_cons_of_mem _ (List.mem_cons_self _ _))).2]
          have hh := prevF_mem_split hal2 han ([] : List Nat)
          simpa using hh
        cases hr : (a :: l2).reverse with
        | nil => simp at hr
        | cons b u =>
            have hl2 : a :: l2 = u.reverse ++ [b] := by
              have hc := congrArg List.reverse hr
              simpa using hc
            have hprev_n : c.prev c.n = b := by
              rw [(hrep c.n (List.mem_cons_self _ _)).2, prevF_sentinel, hr]
              simp
            have hb_mem : b ∈ a :: l2 := by rw [hl2]; simp
            have hbn : b ≠ c.n := hne b hb_mem
            have hb_notin : b ∉ u.reverse := by
              have hndb : (u.reverse ++ [b]).Nodup := hl2 ▸ hnd
              obtain ⟨h1, h2, hd⟩ := List.nodup_append.mp hndb
              exact fun hh => hd hh (List.mem_cons_self _ _)
            have hnext_b : c.next b = c.n := by
              rw [(hrep b (List.mem_cons_of_mem _ hb_mem)).1, hl2]
              have hh := nextF_mem_split hb_notin hbn ([] : List Nat)
              simpa using hh
            rw [hnext, hprev_a, hprev_n, hnext_b]
            exact ⟨rfl, rfl⟩

/-- C6 (counterexample to the claim as stated): the claim includes "the
identity that all slots carry immediately after construction", but `binit`
zero-initializes every slot, so in the state reached from the constructed
capacity-2 cache by the empty operation sequence the two distinct slots 0
and 1 both carry the identity (0, 0): the no-duplicate-binding property is
violated at construction itself. -/
theorem C6_counterexample : ¬ DistinctBindings (run (fun _ _ => 0) (binit 2) []) := by
  intro h
  exact h 0 (by decide) 1 (by decide) (by decide) ⟨rfl, rfl⟩

/-- C6 (amended): the operations do preserve the no-duplicate-binding
invariant — from any well-formed state whose slots have pairwise-distinct
(device, block_number) bindings, every state reachable by `bget`, `bread`,
`bwrite`, `brelse`, `bpin`, `bunpin` (with slot handles denoting real
slots) again has pairwise-distinct bindings; only the constructed state
itself, where all slots share the zero identity, falls outside the
invariant. -/
theorem C6_amended_no_duplicate_bindings (disk : Nat → Nat → Nat) (c : BCache)
    (ops : List Op) (hwf : wf c) (hleg : ∀ op ∈ ops, LegalOp c.n op)
    (hd : DistinctBindings c) : DistinctBindings (run disk c ops) :=
  distinct_run disk c ops hwf hleg hd

theorem C6_amended_witness :
    DistinctBindings (run (fun _ _ => 0) (binit 1) [Op.get 7 1 5]) :=
  C6_amended_no_duplicate_bindings (fun _ _ => 0) (binit 1) [Op.get 7 1 5]
    (binit_wf 1)
    (by
      intro op hop
      simp only [List.mem_singleton] at hop
      subst hop
      exact trivial)
    (by
      intro i hi j hj hij hcontra
      rw [show (binit 1).n = 1 from rfl] at hi hj
      omega)

/-- C7: after construction the recency list is a well-formed cyclic
structure threading exactly the `n` slots plus the sentinel (`wf (binit n)`),
every operation on real slot handles preserves well-formedness, and
well-formedness says exactly that the chain from the sentinel visits every
slot once (`Perm` with `range n`) with `next` and `prev` mutually inverse
on the slots and the sentinel. -/
theorem C7_fixed_membership (disk : Nat → Nat → Nat) (m : Nat) (c : BCache)
    (ops : List Op) (hwf : wf c) (hleg : ∀ op ∈ ops, LegalOp c.n op) :
    wf (binit m) ∧ wf (run disk c ops) ∧
    (mruChain c).Perm (List.range c.n) ∧
    (∀ x, x ≤ c.n → c.prev (c.next x) = x ∧ c.next (c.prev x) = x) := by
  obtain ⟨l, hwl⟩ := hwf
  refine ⟨binit_wf m, wf_run disk c ops ⟨l, hwl⟩ hleg, ?_, wf_inverse hwl⟩
  rw [mruChain_wf hwl]
  exact hwl.1

theorem C7_fixed_membership_witness :
    wf (binit 2) ∧ wf (run (fun _ _ => 0) (binit 1) [Op.get 7 1 5]) ∧
    (mruChain (binit 1)).Perm (List.range (binit 1).n) ∧
    (∀ x, x ≤ (binit 1).n →
      (binit 1).prev ((binit 1).next x) = x ∧ (binit 1).next ((binit 1).prev x) = x) :=
  C7_fixed_membership (fun _ _ => 0) 2 (binit 1) [Op.get 7 1 5] (binit_wf 1)
    (by
      intro op hop
      simp only [List.mem_singleton] at hop
      subst hop
      exact trivial)

/-- C8: starting from the constructed cache, along any operation sequence in
which `brelse` and `bunpin` are invoked only on slots whose reference count
is currently positive, no slot's reference count is ever negative — the
decrements in `brelse` and `bunpin` never underflow. -/
theorem C8_refcount_nonnegative (disk : Nat → Nat → Nat) (n : Nat) (ops : List Op)
    (hgood : GoodSeq disk (binit n) ops) : NonnegRef (run disk (binit n) ops) := by
  apply nonneg_run disk (binit n) ops hgood
  intro x
  rw [binit_bufs n x]
  exact le_refl 0

theorem C8_refcount_nonnegative_witness :
    GoodSeq (fun _ _ => 0) (binit 2) [Op.pin 0, Op.unpin 0] ∧
    NonnegRef (run (fun _ _ => 0) (binit 2) [Op.pin 0, Op.unpin 0]) := by
  have hgood : GoodSeq (fun _ _ => 0) (binit 2) [Op.pin 0, Op.unpin 0] := by
    apply GoodSeq.cons
    · exact trivial
    · apply GoodSeq.cons
      · show (0 : Int) < ((applyOp (fun _ _ => 0) (binit 2) (Op.pin 0)).bufs 0).refcnt
        decide
      · exact GoodSeq.nil _
  exact ⟨hgood, C8_refcount_nonnegative (fun _ _ => 0) 2 _ hgood⟩

theorem C1_acquire_coherence_witness :
    ∃ c2, bget 9 1 5 (run (fun _ _ => 0) ((bget 7 1 5 (binit 3)).2.1)
        [Op.get 8 2 6, Op.relse 8 1]) = (GetRes.ok 0, c2, []) ∧
      ((run (fun _ _ => 0) ((bget 7 1 5 (binit 3)).2.1) [Op.get 8 2 6, Op.relse 8 1]).bufs 0).dev = 1 ∧
      ((run (fun _ _ => 0) ((bget 7 1 5 (binit 3)).2.1) [Op.get 8 2 6, Op.relse 8 1]).bufs 0).blockno = 5 ∧
      c2.bufs 0 = { (run (fun _ _ => 0) ((bget 7 1 5 (binit 3)).2.1) [Op.get 8 2 6, Op.relse 8 1]).bufs 0 with
                      refcnt := ((run (fun _ _ => 0) ((bget 7 1 5 (binit 3)).2.1) [Op.get 8 2 6, Op.relse 8 1]).bufs 0).refcnt + 1,
                      holder := some 9 } ∧
      (∀ j, j ≠ 0 → c2.bufs j = (run (fun _ _ => 0) ((bget 7 1 5 (binit 3)).2.1) [Op.get 8 2 6, Op.relse 8 1]).bufs j) ∧
      c2.next = (run (fun _ _ => 0) ((bget 7 1 5 (binit 3)).2.1) [Op.get 8 2 6, Op.relse 8 1]).next ∧
      c2.prev = (run (fun _ _ => 0) ((bget 7 1 5 (binit 3)).2.1) [Op.get 8 2 6, Op.relse 8 1]).prev ∧
      c2.n = (run (fun _ _ => 0) ((bget 7 1 5 (binit 3)).2.1) [Op.get 8 2 6, Op.relse 8 1]).n := by
  have hkeep : KeepsRef (fun _ _ => 0) 0 ((bget 7 1 5 (binit 3)).2.1)
      [Op.get 8 2 6, Op.relse 8 1] := by
    apply KeepsRef.cons
    · show (0 : Int) <
        ((applyOp (fun _ _ => 0) ((bget 7 1 5 (binit 3)).2.1) (Op.get 8 2 6)).bufs 0).refcnt
      decide
    · apply KeepsRef.cons
      · show (0 : Int) <
          ((applyOp (fun _ _ => 0)
            (applyOp (fun _ _ => 0) ((bget 7 1 5 (binit 3)).2.1) (Op.get 8 2 6))
            (Op.relse 8 1)).bufs 0).refcnt
        decide
      · exact KeepsRef.nil _
  have hleg : ∀ op ∈ ([Op.get 8 2 6, Op.relse 8 1] : List Op),
      LegalOp ((bget 7 1 5 (binit 3)).2.1).n op := by
    intro op hop
    rcases List.mem_cons.mp hop with h | hop2
    · rw [h]
      exact trivial
    · rcases List.mem_cons.mp hop2 with h | hop3
      · rw [h]
        exact (by decide : (1 : Nat) < ((bget 7 1 5 (binit 3)).2.1).n)
      · cases hop3
  exact C1_acquire_coherence (fun _ _ => 0) 7 9 1 5 (binit 3) ((bget 7 1 5 (binit 3)).2.1) 0
    ((bget 7 1 5 (binit 3)).2.2) [Op.get 8 2 6, Op.relse 8 1] (binit_wf 3) (by decide)
    (by decide) rfl hleg hkeep

theorem C2_eviction_policy_witness :
    (∀ x, x < (binit 2).n → isHit 1 5 ((binit 2).bufs x) = false) ∧
    bget 7 1 5 (binit 2) =
      (GetRes.ok 0, { binit 2 with bufs := Function.update (binit 2).bufs 0 ({ (binit 2).bufs 0 with dev := 1, blockno := 5, valid := false, refcnt := 1, holder := some 7 }) }, []) := by
  have hmiss : ∀ x, x < (binit 2).n → isHit 1 5 ((binit 2).bufs x) = false := by decide
  exact ⟨hmiss,
    C2_eviction_policy 7 1 5 (binit 2) ((List.range 2).reverse) 0 (binit_wfList 2)
      hmiss rfl⟩

theorem C3_bread_postcondition_witness :
    ((bread (fun d b => 100 * d + b) 7 1 5 (binit 2)).2.1.bufs 0).dev = 1 ∧
    ((bread (fun d b => 100 * d + b) 7 1 5 (binit 2)).2.1.bufs 0).blockno = 5 ∧
    ((bread (fun d b => 100 * d + b) 7 1 5 (binit 2)).2.1.bufs 0).valid = true ∧
    ((bread (fun d b => 100 * d + b) 7 1 5 (binit 2)).2.2 =
      if ((bget 7 1 5 (binit 2)).2.1.bufs 0).valid then [] else [DiskOp.rd 1 5]) ∧
    (bget 7 1 5 (binit 2)).2.2 = [] :=
  C3_bread_postcondition (fun d b => 100 * d + b) 7 1 5 (binit 2) 0 rfl

theorem C4_release_semantics_witness :
    ∃ c', brelse 7 0 ((bget 7 1 5 (binit 2)).2.1) = (PRes.ok, c') ∧
      c'.bufs = Function.update ((bget 7 1 5 (binit 2)).2.1).bufs 0 ({ ((bget 7 1 5 (binit 2)).2.1).bufs 0 with refcnt := (((bget 7 1 5 (binit 2)).2.1).bufs 0).refcnt - 1, holder := none }) ∧
      c'.n = ((bget 7 1 5 (binit 2)).2.1).n ∧
      ((((bget 7 1 5 (binit 2)).2.1).bufs 0).refcnt - 1 = 0 →
        ptrRep c' (0 :: ((List.range 2).reverse.erase 0)) ∧
        (0 :: ((List.range 2).reverse.erase 0)).Perm (List.range ((bget 7 1 5 (binit 2)).2.1).n)) ∧
      ((((bget 7 1 5 (binit 2)).2.1).bufs 0).refcnt - 1 ≠ 0 →
        c'.next = ((bget 7 1 5 (binit 2)).2.1).next ∧
        c'.prev = ((bget 7 1 5 (binit 2)).2.1).prev) :=
  C4_release_semantics 7 0 ((bget 7 1 5 (binit 2)).2.1) ((List.range 2).reverse)
    (wfList_congr rfl rfl rfl (binit_wfList 2)) rfl (by decide)

theorem C5_capacity_exhaustion_witness :
    bget 8 2 6 ((bget 7 1 5 (binit 1)).2.1) =
      (GetRes.fatal, (bget 7 1 5 (binit 1)).2.1, []) :=
  C5_capacity_exhaustion_fatal 8 2 6 ((bget 7 1 5 (binit 1)).2.1)
    ⟨(List.range 1).reverse, wfList_congr rfl rfl rfl (binit_wfList 1)⟩
    (by decide) (by decide)

theorem C9_lock_protocol_witness :
    (bwrite 5 0 (binit 1) = (PRes.fatal, binit 1, []) ∧
     brelse 5 0 (binit 1) = (PRes.fatal, binit 1)) ∧
    (bwrite 7 0 ((bget 7 1 5 (binit 1)).2.1) =
      (PRes.ok, (bget 7 1 5 (binit 1)).2.1,
       [DiskOp.wr ((((bget 7 1 5 (binit 1)).2.1).bufs 0).dev) ((((bget 7 1 5 (binit 1)).2.1).bufs 0).blockno)]) ∧
     (brelse 7 0 ((bget 7 1 5 (binit 1)).2.1)).1 = PRes.ok) :=
  ⟨(C9_lock_protocol 5 0 (binit 1)).1 (by decide),
   (C9_lock_protocol 7 0 ((bget 7 1 5 (binit 1)).2.1)).2 (by decide)⟩

theorem C10_reorder_only_on_release_to_zero_witness :
    ((binit 2).bufs 0).refcnt - 1 ≠ 0 ∧
    ((brelse 9 0 (binit 2)).2.next = (binit 2).next ∧
     (brelse 9 0 (binit 2)).2.prev = (binit 2).prev) :=
  ⟨by decide,
   (C10_reorder_only_on_release_to_zero 9 1 5 0 0 (binit 2)).2.2.2 (by decide)⟩
